import Mathlib

/-!
Verification of the lexical text-processing engine of the superdb-syntaxes
LSP server: the formatter lexer (`tokenize`), the token pretty-printer
(`formatTokens` / `formatDocument`) from `lsp/format.go`, and the migration
scanner (`getMigrationDiagnostics` / `getCodeActionsForDiagnostics`) from
`lsp/migration.go`.

Texts are modelled as `List Char`; the Go code inspects one byte at a time
and every comparison it performs is against an ASCII character, so the
byte-level scan and the character-level scan agree on the decisions taken.
Index-scanning loops of the Go code are embedded as fuel-based structural
recursions (fuel is always instantiated large enough to cover the scan, so
the functions compute exactly the loops); this keeps every definition
kernel-reducible.
-/

set_option maxRecDepth 10000
set_option maxHeartbeats 1000000

namespace SuperdbLsp

/-- Token kinds of the formatter lexer (`format.go`, `tokenType`). -/
inductive tokenType where
  | tokWhitespace
  | tokNewline
  | tokComment
  | tokString
  | tokRegexp
  | tokIdentifier
  | tokNumber
  | tokOperator
  | tokPipe
  | tokPunctuation
  | tokKeyword
deriving DecidableEq, Repr

/-- A lexer token (`format.go`, `token`): kind plus the literal slice. -/
structure Token where
  typ : tokenType
  value : List Char
deriving DecidableEq, Repr

/-- `format.go` `isDigit`. -/
def isDigit (c : Char) : Bool := '0' ≤ c && c ≤ '9'

/-- `format.go` `isHexDigit`. -/
def isHexDigit (c : Char) : Bool :=
  isDigit c || ('a' ≤ c && c ≤ 'f') || ('A' ≤ c && c ≤ 'F')

/-- `format.go` `isLetter`. -/
def isLetter (c : Char) : Bool :=
  ('a' ≤ c && c ≤ 'z') || ('A' ≤ c && c ≤ 'Z')

/-- The fixed keyword set of `format.go` (`formattingKeywords`). -/
def formattingKeywords : List (List Char) :=
  ["select".toList, "from".toList, "where".toList, "group".toList, "by".toList,
   "having".toList, "order".toList, "limit".toList, "offset".toList, "with".toList,
   "join".toList, "inner".toList, "left".toList, "right".toList, "outer".toList,
   "full".toList, "cross".toList, "anti".toList, "on".toList, "using".toList,
   "and".toList, "or".toList, "not".toList, "in".toList, "like".toList, "is".toList,
   "between".toList, "case".toList, "when".toList, "then".toList, "else".toList,
   "end".toList, "as".toList, "distinct".toList, "all".toList, "union".toList,
   "const".toList, "fn".toList, "op".toList, "type".toList, "let".toList,
   "true".toList, "false".toList, "null".toList, "asc".toList, "desc".toList]

/-- `format.go` `isKeyword`: case-normalized membership in the keyword set.
(`strings.ToLower` agrees with per-character ASCII lowering on every word the
lexer can produce here: non-backtick words consist of ASCII letters, digits
and underscores only, and backtick-quoted words contain a backtick, which no
keyword does.) -/
def isKeyword (word : List Char) : Bool :=
  formattingKeywords.contains (word.map Char.toLower)

/-- Horizontal whitespace recognized by the lexer's whitespace branch. -/
def isHWS (c : Char) : Bool := c = ' ' || c = '\t' || c = '\r'

/-- The backtick character (byte 96). -/
def backtickChar : Char := Char.ofNat 96

/-- `format.go` `canPrecedeRegex`. -/
def canPrecedeRegex (tok : Token) : Bool :=
  match tok.typ with
  | .tokWhitespace | .tokNewline | .tokPipe | .tokOperator => true
  | .tokPunctuation =>
    tok.value = ['('] || tok.value = ['['] || tok.value = [','] || tok.value = [':']
  | .tokKeyword => true
  | _ => false

/-- `format.go` `needsSpaceBefore`. -/
def needsSpaceBefore (prev : Token) : Bool :=
  match prev.typ with
  | .tokWhitespace | .tokNewline | .tokPipe => false
  | .tokPunctuation =>
    prev.value ≠ ['('] && prev.value ≠ ['['] && prev.value ≠ ['.'] && prev.value ≠ [':']
  | .tokOperator =>
    prev.value ≠ ['.'] && prev.value ≠ [':', ':'] && prev.value ≠ ['-', '>']
  | _ => true

/-- Scan of a block comment body, starting right after the opening slash-star:
the loop `for i+1 < len && !(text[i]=='*' && text[i+1]=='/') { i++ }` followed
by `if i+1 < len { i += 2 }`.  Returns the consumed part and the rest. -/
def blockRest : List Char → List Char × List Char
  | [] => ([], [])
  | [x] => ([], [x])
  | x :: y :: r =>
    if x = '*' && y = '/' then (['*', '/'], r)
    else
      let p := blockRest (y :: r)
      (x :: p.1, p.2)

/-- Scan of a string literal body after the opening quote `q`: the loop
`for i < len && text[i] != quote { if text[i]=='\\' && i+1 < len {i+=2} else {i++} }`
followed by `if i < len { i++ }` (consume the closing quote). -/
def strBody (q : Char) : List Char → List Char × List Char
  | [] => ([], [])
  | c :: cs =>
    if c = q then ([c], cs)
    else if c = '\\' then
      match cs with
      | [] => ([c], [])
      | d :: ds =>
        let p := strBody q ds
        (c :: d :: p.1, p.2)
    else
      let p := strBody q cs
      (c :: p.1, p.2)

/-- Scan of a regex literal body after the opening slash: the loop
`for i < len && text[i] != '/' && text[i] != '\n' { escape-pair or single }`;
`some (body, rest)` when a closing `/` is found (body includes it), `none`
when the scan hits a newline or the end of input first (the Go code then
backtracks with `i = start`). -/
def regexBody : List Char → Option (List Char × List Char)
  | [] => none
  | c :: cs =>
    if c = '/' then some (['/'], cs)
    else if c = '\n' then none
    else if c = '\\' then
      match cs with
      | [] => none
      | d :: ds => (regexBody ds).map (fun p => (c :: d :: p.1, p.2))
    else (regexBody cs).map (fun p => (c :: p.1, p.2))

/-- The optional exponent part of a number (`if text[i]=='e'||'E' { ... }`). -/
def expPart : List Char → List Char × List Char
  | [] => ([], [])
  | c :: cs =>
    if c = 'e' || c = 'E' then
      match cs with
      | [] => ([c], [])
      | d :: ds =>
        if d = '+' || d = '-' then
          (c :: d :: ds.takeWhile isDigit, ds.dropWhile isDigit)
        else
          (c :: cs.takeWhile isDigit, cs.dropWhile isDigit)
    else ([], c :: cs)

/-- Scan of a number token starting at its first character: `0x` hex with
hex-digit run, or digit/dot run plus optional exponent; in both cases a
trailing letter run (unit suffixes). -/
def scanNumber : List Char → List Char × List Char
  | [] => ([], [])
  | c :: cs =>
    if c = '0' && (match cs.head? with | some d => d = 'x' || d = 'X' | none => false) then
      match cs with
      | [] => ([c], [])
      | d :: ds =>
        let hexs := ds.takeWhile isHexDigit
        let r1 := ds.dropWhile isHexDigit
        (c :: d :: (hexs ++ r1.takeWhile isLetter), r1.dropWhile isLetter)
    else
      let digs := (c :: cs).takeWhile (fun ch => isDigit ch || ch = '.')
      let r1 := (c :: cs).dropWhile (fun ch => isDigit ch || ch = '.')
      let e := expPart r1
      (digs ++ e.1 ++ e.2.takeWhile isLetter, e.2.dropWhile isLetter)

/-- Identifier characters after the first (letter, digit or underscore). -/
def isIdentChar (c : Char) : Bool := isLetter c || isDigit c || c = '_'

/-- Scan of a backtick-quoted identifier, `cs` being the input after the
opening backtick: scan to the matching backtick, consuming it if present. -/
def scanBacktick (cs : List Char) : List Char × List Char :=
  let body := cs.takeWhile (fun c => c ≠ backtickChar)
  match cs.dropWhile (fun c => c ≠ backtickChar) with
  | d :: ds => (backtickChar :: (body ++ [d]), ds)
  | [] => (backtickChar :: body, [])

/-- Single-character operator set (`strings.ContainsRune("+-*/%<>=!~", ...)`). -/
def isOpChar (c : Char) : Bool :=
  c = '+' || c = '-' || c = '*' || c = '/' || c = '%' || c = '<' ||
  c = '>' || c = '=' || c = '!' || c = '~'

/-- Punctuation set (`strings.ContainsRune("()[]{},:;.?", ...)`). -/
def isPunctChar (c : Char) : Bool :=
  c = '(' || c = ')' || c = '[' || c = ']' || c = '{' || c = '}' ||
  c = ',' || c = ':' || c = ';' || c = '.' || c = '?'

/-- The fixed two-character operator set of the lexer. -/
def twoCharOp (c d : Char) : Bool :=
  (c = ':' && d = '=') || (c = ':' && d = ':') || (c = '-' && d = '>') ||
  (c = '=' && d = '=') || (c = '!' && d = '=') || (c = '<' && d = '>') ||
  (c = '<' && d = '=') || (c = '>' && d = '=') || (c = '!' && d = '~')

/-- The tail of the lexer's scan cascade: pipe family, three-character spread,
two-character operators, single-character operators, punctuation, numbers,
identifiers/keywords, and the unknown-byte fallback.  This is the code the
failed-regex backtrack (`i = start`) falls through to. -/
def scanRest (c : Char) (cs : List Char) : Token × List Char :=
  if c = '|' then
    if cs.head? = some '>' then (⟨.tokPipe, ['|', '>']⟩, cs.tail)
    else if cs.head? = some '|' then (⟨.tokOperator, ['|', '|']⟩, cs.tail)
    else (⟨.tokPipe, ['|']⟩, cs)
  else if c = '.' && cs.head? = some '.' && cs.tail.head? = some '.' then
    (⟨.tokOperator, ['.', '.', '.']⟩, cs.tail.tail)
  else if (match cs.head? with | some d => twoCharOp c d | none => false) then
    (⟨.tokOperator, [c, cs.headD ' ']⟩, cs.tail)
  else if isOpChar c then (⟨.tokOperator, [c]⟩, cs)
  else if isPunctChar c then (⟨.tokPunctuation, [c]⟩, cs)
  else if isDigit c || (c = '.' && (match cs.head? with | some d => isDigit d | none => false)) then
    let p := scanNumber (c :: cs)
    (⟨.tokNumber, p.1⟩, p.2)
  else if isLetter c || c = '_' || c = backtickChar then
    let p := if c = backtickChar then scanBacktick cs
             else ((c :: cs).takeWhile isIdentChar, (c :: cs).dropWhile isIdentChar)
    (⟨if isKeyword p.1 then .tokKeyword else .tokIdentifier, p.1⟩, p.2)
  else (⟨.tokPunctuation, [c]⟩, cs)

/-- One iteration of the lexer loop of `tokenize`: classifies the next token
at the head of the remaining input, given the previously emitted token
(`none` at the start of the input).  Branch order follows the Go code:
newline, horizontal whitespace, line comment, block comment, string, regex
attempt (falling through to `scanRest` when the predecessor forbids a regex
or no closing slash is found), then `scanRest`. -/
def scanToken (prev : Option Token) : List Char → Token × List Char
  | [] => (⟨.tokWhitespace, []⟩, [])
  | c :: cs =>
    if c = '\n' then (⟨.tokNewline, ['\n']⟩, cs)
    else if isHWS c then
      (⟨.tokWhitespace, (c :: cs).takeWhile isHWS⟩, (c :: cs).dropWhile isHWS)
    else if c = '-' && cs.head? = some '-' then
      (⟨.tokComment, (c :: cs).takeWhile (fun ch => ch ≠ '\n')⟩,
       (c :: cs).dropWhile (fun ch => ch ≠ '\n'))
    else if c = '/' && cs.head? = some '*' then
      let p := blockRest cs.tail
      (⟨.tokComment, c :: '*' :: p.1⟩, p.2)
    else if c = '"' || c = '\'' then
      let p := strBody c cs
      (⟨.tokString, c :: p.1⟩, p.2)
    else if (c = 'f' || c = 'r') &&
        (match cs.head? with | some d => d = '"' || d = '\'' | none => false) then
      let p := strBody (cs.headD ' ') cs.tail
      (⟨.tokString, c :: cs.headD ' ' :: p.1⟩, p.2)
    else if c = '/' && (match prev with | none => true | some t => canPrecedeRegex t) then
      match regexBody cs with
      | some p => (⟨.tokRegexp, '/' :: p.1⟩, p.2)
      | none => scanRest c cs
    else scanRest c cs

/-- The lexer loop with explicit fuel; each iteration consumes at least one
character, so fuel `text.length` makes this exactly the `tokenize` loop. -/
def tokenizeFuel : Nat → Option Token → List Char → List Token
  | 0, _, _ => []
  | _ + 1, _, [] => []
  | fuel + 1, prev, c :: cs =>
    let p := scanToken prev (c :: cs)
    p.1 :: tokenizeFuel fuel (some p.1) p.2

/-- `format.go` `tokenize`. -/
def tokenize (text : List Char) : List Token :=
  tokenizeFuel text.length none text

/-- Concatenation of the literal values of a token sequence. -/
def tokensText (ts : List Token) : List Char :=
  (ts.map Token.value).flatten

/-- LSP formatting options (`FormattingOptions`). -/
structure FormattingOptions where
  TabSize : Nat
  InsertSpaces : Bool
  TrimTrailingWhitespace : Bool
  InsertFinalNewline : Bool
  TrimFinalNewlines : Bool
deriving DecidableEq, Repr

/-- The state threaded through the `formatTokens` loop: accumulated output,
indent depth, line-start flag and previously processed token (the Go zero
value `token{}` has kind 0 = whitespace and empty literal). -/
structure FmtState where
  out : List Char
  indent : Nat
  lineStart : Bool
  prevTok : Token
deriving DecidableEq, Repr

/-- Initial formatter state. -/
def fmtInit : FmtState := ⟨[], 0, true, ⟨.tokWhitespace, []⟩⟩

/-- One indent unit (`indentStr`): a tab, or `TabSize` spaces. -/
def indentChunk (o : FormattingOptions) : List Char :=
  if o.InsertSpaces then List.replicate o.TabSize ' ' else ['\t']

/-- `strings.Repeat(indentStr, n)`. -/
def indentOf (o : FormattingOptions) (n : Nat) : List Char :=
  (List.replicate n (indentChunk o)).flatten

/-- The `tokPunctuation` case of the `formatTokens` switch. -/
def fmtPunct (o : FormattingOptions) (st : FmtState) (tok : Token)
    (next : Option Token) : FmtState :=
  let v := tok.value
  let pre := if st.lineStart && v ≠ [')'] && v ≠ [']'] && v ≠ ['}'] then
      indentOf o st.indent else []
  if v = ['('] then
    { st with out := st.out ++ pre ++ v, indent := st.indent + 1,
              lineStart := false, prevTok := tok }
  else if v = [')'] then
    { st with out := st.out ++ pre ++ v, indent := st.indent - 1,
              lineStart := false, prevTok := tok }
  else if v = ['{'] then
    { st with out := st.out ++ pre ++ v, indent := st.indent + 1,
              lineStart := false, prevTok := tok }
  else if v = ['}'] then
    let ind2 := if st.lineStart then indentOf o (st.indent - 1) else []
    { st with out := st.out ++ pre ++ ind2 ++ v, indent := st.indent - 1,
              lineStart := false, prevTok := tok }
  else if v = [','] then
    let after := match next with
      | some nt => if nt.typ ≠ tokenType.tokNewline then [' '] else []
      | none => []
    { st with out := st.out ++ pre ++ v ++ after, lineStart := false, prevTok := tok }
  else if v = [':'] then
    let emitted := if st.prevTok.typ = tokenType.tokIdentifier ||
        st.prevTok.typ = tokenType.tokString then [':', ' '] else v
    { st with out := st.out ++ pre ++ emitted, lineStart := false, prevTok := tok }
  else
    { st with out := st.out ++ pre ++ v, lineStart := false, prevTok := tok }

/-- The `tokOperator` case of the `formatTokens` switch. -/
def fmtOp (o : FormattingOptions) (st : FmtState) (tok : Token)
    (next : Option Token) : FmtState :=
  let v := tok.value
  let pre := if st.lineStart then indentOf o st.indent else []
  if v = ['.'] || v = ['.', '.', '.'] || v = [':', ':'] || v = ['-', '>'] then
    { st with out := st.out ++ pre ++ v, lineStart := false, prevTok := tok }
  else
    let before := if !st.lineStart && st.prevTok.typ ≠ tokenType.tokWhitespace &&
        st.prevTok.typ ≠ tokenType.tokNewline &&
        st.prevTok.value ≠ ['('] && st.prevTok.value ≠ ['['] then [' '] else []
    let after := match next with
      | some nt =>
        if nt.typ ≠ tokenType.tokNewline && nt.typ ≠ tokenType.tokWhitespace &&
            nt.value ≠ [')'] && nt.value ≠ [']'] && nt.value ≠ [','] then [' ']
        else []
      | none => []
    { st with out := st.out ++ pre ++ before ++ v ++ after,
              lineStart := false, prevTok := tok }

/-- One iteration of the `formatTokens` loop on token `tok`, with `next` the
lookahead `tokens[i+1]`. -/
def fmtStep (o : FormattingOptions) (st : FmtState) (tok : Token)
    (next : Option Token) : FmtState :=
  match tok.typ with
  | .tokNewline =>
    { st with out := st.out ++ ['\n'], lineStart := true, prevTok := tok }
  | .tokWhitespace =>
    let emit := !st.lineStart &&
      (match next with
       | some nt => nt.typ ≠ tokenType.tokNewline && nt.typ ≠ tokenType.tokPipe
       | none => false) &&
      st.prevTok.typ ≠ tokenType.tokPipe
    { st with out := st.out ++ (if emit then [' '] else []), prevTok := tok }
  | .tokComment =>
    let pre := if st.lineStart then indentOf o st.indent else []
    { st with out := st.out ++ pre ++ tok.value, lineStart := false, prevTok := tok }
  | .tokPipe =>
    let nl := if !st.lineStart then ['\n'] else []
    { st with out := st.out ++ nl ++ indentOf o st.indent ++ tok.value ++ [' '],
              lineStart := false, prevTok := tok }
  | .tokPunctuation => fmtPunct o st tok next
  | .tokOperator => fmtOp o st tok next
  | .tokKeyword =>
    let pre := if st.lineStart then indentOf o st.indent
               else if needsSpaceBefore st.prevTok then [' '] else []
    { st with out := st.out ++ pre ++ tok.value, lineStart := false, prevTok := tok }
  | .tokIdentifier | .tokNumber | .tokString | .tokRegexp =>
    let pre := if st.lineStart then indentOf o st.indent
               else if needsSpaceBefore st.prevTok then [' '] else []
    { st with out := st.out ++ pre ++ tok.value, lineStart := false, prevTok := tok }

/-- The `formatTokens` loop over the whole token sequence. -/
def fmtLoop (o : FormattingOptions) : FmtState → List Token → FmtState
  | st, [] => st
  | st, t :: rest => fmtLoop o (fmtStep o st t rest.head?) rest

/-- `unicode.IsSpace` on the characters Go recognizes as white space. -/
def goIsSpace (c : Char) : Bool :=
  c = ' ' || c = '\t' || c = '\n' || c = '\r' ||
  c = Char.ofNat 11 || c = Char.ofNat 12 || c = Char.ofNat 0x85 || c = Char.ofNat 0xA0 ||
  c = Char.ofNat 0x1680 || (Char.ofNat 0x2000 ≤ c && c ≤ Char.ofNat 0x200A) ||
  c = Char.ofNat 0x2028 || c = Char.ofNat 0x2029 || c = Char.ofNat 0x202F ||
  c = Char.ofNat 0x205F || c = Char.ofNat 0x3000

/-- `strings.TrimRightFunc(line, unicode.IsSpace)`. -/
def trimRightWs (l : List Char) : List Char :=
  (l.reverse.dropWhile goIsSpace).reverse

/-- `strings.Split(text, "\n")`. -/
def splitNl : List Char → List (List Char)
  | [] => [[]]
  | c :: cs =>
    match splitNl cs with
    | [] => [[c]]
    | h :: t => if c = '\n' then [] :: h :: t else (c :: h) :: t

/-- `strings.Join(lines, "\n")`. -/
def joinNl (ls : List (List Char)) : List Char :=
  (ls.intersperse ['\n']).flatten

/-- `format.go` `formatTokens`: the main loop followed by the option-driven
post-passes (per-line trailing-whitespace trim, final-newline handling). -/
def formatTokens (tokens : List Token) (o : FormattingOptions) : List Char :=
  let f0 := (fmtLoop o fmtInit tokens).out
  let f1 := if o.TrimTrailingWhitespace then joinNl ((splitNl f0).map trimRightWs) else f0
  let f2 := if o.TrimFinalNewlines then (f1.reverse.dropWhile (fun c => c = '\n')).reverse else f1
  if o.InsertFinalNewline && f2.getLast? ≠ some '\n' then f2 ++ ['\n'] else f2

/-- `format.go` `formatDocument`. -/
def formatDocument (text : List Char) (o : FormattingOptions) : List Char :=
  formatTokens (tokenize text) o

/-! ### Migration scanner (`migration.go`)

LSP protocol records.  Line and column values produced by the scanner are
zero-based non-negative byte offsets, so they are modelled as `Nat`. -/

/-- LSP `Position`. -/
structure Position where
  Line : Nat
  Character : Nat
deriving DecidableEq, Repr

/-- LSP `Range`. -/
structure Range where
  Start : Position
  End : Position
deriving DecidableEq, Repr

/-- LSP `TextEdit`. -/
structure TextEdit where
  Range : SuperdbLsp.Range
  NewText : List Char
deriving DecidableEq, Repr

/-- LSP `Diagnostic`. -/
structure Diagnostic where
  Range : SuperdbLsp.Range
  Severity : Nat
  Code : String
  Source : String
  Message : List Char
deriving DecidableEq, Repr

/-- `migration.go` `MigrationDiagnostic`. -/
structure MigrationDiagnostic where
  Diagnostic : SuperdbLsp.Diagnostic
  Fix : Option TextEdit
deriving DecidableEq, Repr

/-- LSP `WorkspaceEdit`: the `Changes` map, as an association list. -/
structure WorkspaceEdit where
  Changes : List (String × List TextEdit)
deriving DecidableEq, Repr

/-- LSP `CodeAction`. -/
structure CodeAction where
  Title : List Char
  Kind : String
  Diagnostics : List SuperdbLsp.Diagnostic
  IsPreferred : Bool
  Edit : Option WorkspaceEdit
deriving DecidableEq, Repr

/-- Diagnostic severity constants. -/
def DiagnosticSeverityError : Nat := 1

/-- Diagnostic severity constant for warnings. -/
def DiagnosticSeverityWarning : Nat := 2

/-- Code-action kind constant for quick fixes (protocol constant referenced
by `migration.go`; its defining file is outside the provided sources, but no
property below depends on the literal value). -/
def CodeActionKindQuickFix : String := "quickfix"

/-- Code-action kind constant for source.fixAll actions (see
`CodeActionKindQuickFix` about the literal). -/
def CodeActionKindSourceFixAll : String := "source.fixAll"

/-- The apostrophe character; message and title literals are assembled with
it. -/
def apos : Char := Char.ofNat 39

/-- Wrap a word in apostrophes, as the Go message literals do. -/
def quoted (s : String) : List Char := apos :: s.toList ++ [apos]

/-! Regular-expression matching.  Each migration `Pattern` is embedded as a
hand-transliterated matcher with RE2 semantics: `matchX s p` returns the end
offset (and, for patterns with a capturing group, the capture's offsets) of
the match starting at byte offset `p` of `s`, or `none`.  The generic
`findAllOf` then reproduces `FindAllStringIndex(line, -1)`: successive
leftmost matches, resuming after each match's end. -/

/-- RE2 `\w` (word character): `[0-9A-Za-z_]`. -/
def isWordChar (c : Char) : Bool := isLetter c || isDigit c || c = '_'

/-- RE2 `\s`: `[\t\n\f\r ]`. -/
def isSpc (c : Char) : Bool :=
  c = '\t' || c = '\n' || c = Char.ofNat 12 || c = '\r' || c = ' '

/-- Does the word `w` occur at offset `p` of `s`? -/
def hasSub (s : List Char) (p : Nat) (w : List Char) : Bool :=
  w.isPrefixOf (s.drop p)

/-- RE2 `\b` holds before offset `p` (the pattern continues with a word
character): start of text or a non-word character at `p - 1`. -/
def boundaryBefore (s : List Char) (p : Nat) : Bool :=
  p = 0 || (match s[p-1]? with | some c => !isWordChar c | none => true)

/-- RE2 `\b` holds after offset `e` (the pattern ended with a word
character): end of text or a non-word character at `e`. -/
def boundaryAfter (s : List Char) (e : Nat) : Bool :=
  match s[e]? with | some c => !isWordChar c | none => true

/-- Fuel-based scan for `\s*`: first offset `≥ i` holding no space. -/
def skipWsF : Nat → List Char → Nat → Nat
  | 0, _, i => i
  | fuel + 1, s, i =>
    match s[i]? with
    | some c => if isSpc c then skipWsF fuel s (i+1) else i
    | none => i

/-- Offset after the maximal `\s*` run starting at `i`. -/
def skipWs (s : List Char) (i : Nat) : Nat := skipWsF (s.length + 1) s i

/-- Fuel-based scan for the first occurrence of character `c` at `≥ i`. -/
def findCharF : Nat → List Char → Char → Nat → Option Nat
  | 0, _, _, _ => none
  | fuel + 1, s, c, i =>
    match s[i]? with
    | some d => if d = c then some i else findCharF fuel s c (i+1)
    | none => none

/-- First offset `≥ i` where `s` holds the character `c`. -/
def findChar (s : List Char) (c : Char) (i : Nat) : Option Nat :=
  findCharF (s.length + 1) s c i

/-- `\byield\b` / `\bfunc\b`: whole-word occurrence of `w` at `p` (each `w`
used below starts and ends with a word character). -/
def matchWord (w : List Char) (s : List Char) (p : Nat) : Option Nat :=
  if boundaryBefore s p && hasSub s p w && boundaryAfter s (p + w.length) then
    some (p + w.length)
  else none

/-- A plain literal pattern (`=>`). -/
def matchLit (w : List Char) (s : List Char) (p : Nat) : Option Nat :=
  if hasSub s p w then some (p + w.length) else none

/-- `(^|[^:])//`: at offset 0 the `^` alternative is preferred (a match of
length 2), otherwise one non-colon character precedes the marker (length 3).
There is no multiline flag, so `^` only matches at the start of the line
string. -/
def matchCommentSlash (s : List Char) (p : Nat) : Option Nat :=
  if p = 0 && hasSub s 0 ['/', '/'] then some 2
  else
    match s[p]? with
    | some c => if c ≠ ':' && hasSub s (p+1) ['/', '/'] then some (p + 3) else none
    | none => none

/-- `\bW\s*\(` (used by `parse_zson` and the removed-function rules). -/
def matchWordParen (w : List Char) (s : List Char) (p : Nat) : Option Nat :=
  if boundaryBefore s p && hasSub s p w then
    let i := skipWs s (p + w.length)
    if s[i]? = some '(' then some (i + 1) else none
  else none

/-- The capturing group `('[^']*'|"[^"]*")` at offset `j`: a quoted run to
the next identical quote.  Returns the capture's start and end offsets. -/
def matchQuotedArg (s : List Char) (j : Nat) : Option (Nat × Nat) :=
  match s[j]? with
  | some c =>
    if c = '\'' || c = '"' then
      match findChar s c (j+1) with
      | some k => some (j, k + 1)
      | none => none
    else none
  | none => none

/-- The capturing group `(/[^/]*/|'[^']*'|"[^"]*")` of the grep rule: the
slash-delimited alternative is tried first; the alternatives start with
distinct characters, so the choice is determined by `s[j]`. -/
def matchGrepArg (s : List Char) (j : Nat) : Option (Nat × Nat) :=
  match s[j]? with
  | some c =>
    if c = '/' then
      match findChar s '/' (j+1) with
      | some k => some (j, k + 1)
      | none => none
    else matchQuotedArg s j
  | none => none

/-- `\bgrep\s*\(\s*(/[^/]*/|'[^']*'|"[^"]*")\s*\)`, returning the match end
and the capture. -/
def matchGrep (s : List Char) (p : Nat) : Option (Nat × (Nat × Nat)) :=
  if boundaryBefore s p && hasSub s p "grep".toList then
    let i := skipWs s (p + 4)
    if s[i]? = some '(' then
      let j := skipWs s (i + 1)
      match matchGrepArg s j with
      | some cap =>
        let m := skipWs s cap.2
        if s[m]? = some ')' then some (m + 1, cap) else none
      | none => none
    else none
  else none

/-- `\bis\s*\(\s*<[^>]+>\s*\)`, returning the match end and the `<...>`
capture (`[^>]+` needs at least one character before the closing `>`). -/
def matchIs (s : List Char) (p : Nat) : Option (Nat × (Nat × Nat)) :=
  if boundaryBefore s p && hasSub s p "is".toList then
    let i := skipWs s (p + 2)
    if s[i]? = some '(' then
      let j := skipWs s (i + 1)
      if s[j]? = some '<' then
        match findChar s '>' (j + 1) with
        | some k =>
          if j + 1 < k then
            let m := skipWs s (k + 1)
            if s[m]? = some ')' then some (m + 1, (j, k + 1)) else none
          else none
        | none => none
      else none
    else none
  else none

/-- `\bnest_dotted\s*\(\s*\)`. -/
def matchNestDotted (s : List Char) (p : Nat) : Option Nat :=
  if boundaryBefore s p && hasSub s p "nest_dotted".toList then
    let i := skipWs s (p + 11)
    if s[i]? = some '(' then
      let j := skipWs s (i + 1)
      if s[j]? = some ')' then some (j + 1) else none
    else none
  else none

/-- `\bW\s*\(\s*('[^']*'|"[^"]*")\s*\)` (the cast rules), returning the match
end and the quoted capture. -/
def matchCast (w : List Char) (s : List Char) (p : Nat) : Option (Nat × (Nat × Nat)) :=
  if boundaryBefore s p && hasSub s p w then
    let i := skipWs s (p + w.length)
    if s[i]? = some '(' then
      let j := skipWs s (i + 1)
      match matchQuotedArg s j with
      | some cap =>
        let m := skipWs s cap.2
        if s[m]? = some ')' then some (m + 1, cap) else none
      | none => none
    else none
  else none

/-- Fuel-based leftmost-match search: the first offset `q` with `p ≤ q ≤
s.length` where the matcher succeeds. -/
def findFromF (m : List Char → Nat → Option Nat) (s : List Char) :
    Nat → Nat → Option (Nat × Nat)
  | 0, _ => none
  | fuel + 1, p =>
    if p > s.length then none
    else
      match m s p with
      | some e => some (p, e)
      | none => findFromF m s fuel (p + 1)

/-- Fuel-based `FindAllStringIndex` loop: collect successive leftmost
matches, resuming after each match's end (or one past it for an empty
match, as the Go library does). -/
def findAllF (m : List Char → Nat → Option Nat) (s : List Char) :
    Nat → Nat → List (Nat × Nat)
  | 0, _ => []
  | fuel + 1, p =>
    match findFromF m s (s.length + 1 - p) p with
    | none => []
    | some (q, e) => (q, e) :: findAllF m s fuel (if e ≤ q then q + 1 else e)

/-- `Pattern.FindAllStringIndex(s, -1)` for the embedded matcher `m`. -/
def findAllOf (m : List Char → Nat → Option Nat) (s : List Char) : List (Nat × Nat) :=
  findAllF m s (s.length + 1) 0

/-- Go `s[a:b]`. -/
def slice (s : List Char) (a b : Nat) : List Char := (s.drop a).take (b - a)

/-- `strings.Index(s, w)`, as an option instead of `-1`. -/
def indexOfSub (s w : List Char) : Option Nat :=
  (findFromF (fun s p => matchLit w s p) s (s.length + 1) 0).map (·.1)

/-- `strings.Contains(s, w)`. -/
def containsSub (s w : List Char) : Bool := (indexOfSub s w).isSome

/-- The `deprecated-comment-slash` fix function: keep everything before the
marker, replace the marker by `--`. -/
def commentSlashFix (m : List Char) : List Char :=
  if m.length > 2 then m.take (m.length - 2) ++ ['-', '-'] else ['-', '-']

/-- The `deprecated-parse-zson` fix function. -/
def parseZsonFix (_ : List Char) : List Char := "parse_sup(".toList

/-- The `implicit-this-grep` fix function: re-locate the captured pattern in
the matched text (`FindStringSubmatch`), convert a `/.../` form to a quoted
form, and add the explicit `this` argument. -/
def grepFix (m : List Char) : List Char :=
  match findFromF (fun s p => (matchGrep s p).map (·.1)) m (m.length + 1) 0 with
  | some (q, _) =>
    match matchGrep m q with
    | some (_, cap) =>
      let pat := slice m cap.1 cap.2
      if pat.head? = some '/' && pat.getLast? = some '/' then
        "grep(".toList ++ [apos] ++ slice pat 1 (pat.length - 1) ++ [apos] ++ ", this)".toList
      else
        "grep(".toList ++ pat ++ ", this)".toList
    | none => m
  | none => m

/-- The `implicit-this-is` fix function. -/
def isFix (m : List Char) : List Char :=
  match findFromF (fun s p => (matchIs s p).map (·.1)) m (m.length + 1) 0 with
  | some (q, _) =>
    match matchIs m q with
    | some (_, cap) => "is(this, ".toList ++ slice m cap.1 cap.2 ++ ")".toList
    | none => m
  | none => m

/-- The `implicit-this-nest-dotted` fix function. -/
def nestDottedFix (_ : List Char) : List Char := "nest_dotted(this)".toList

/-- The cast-rule fix functions: captured quoted literal followed by `::W`. -/
def castFix (w : String) (m : List Char) : List Char :=
  match findFromF (fun s p => (matchCast w.toList s p).map (·.1)) m (m.length + 1) 0 with
  | some (q, _) =>
    match matchCast w.toList m q with
    | some (_, cap) => slice m cap.1 cap.2 ++ ":".toList ++ ":".toList ++ w.toList
    | none => m
  | none => m

/-- `migration.go` `Migration`: the rule registry entry.  The Go `Pattern`
field (a compiled regular expression) is embedded as the `find` function
computing its `FindAllStringIndex`. -/
structure Migration where
  Code : String
  find : List Char → List (Nat × Nat)
  OldText : List Char
  NewText : List Char
  Message : List Char
  Severity : Nat
  HasAutoFix : Bool
  FixFunc : Option (List Char → List Char)

/-- The rule registry (`migration.go` `migrations`), in declaration order. -/
def migrations : List Migration :=
  [⟨"deprecated-yield", findAllOf (matchWord "yield".toList),
    "yield".toList, "values".toList,
    quoted "yield" ++ " is deprecated, use ".toList ++ quoted "values",
    DiagnosticSeverityWarning, true, none⟩,
   ⟨"deprecated-func", findAllOf (matchWord "func".toList),
    "func".toList, "fn".toList,
    quoted "func" ++ " is deprecated, use ".toList ++ quoted "fn",
    DiagnosticSeverityWarning, true, none⟩,
   ⟨"deprecated-arrow", findAllOf (matchLit "=>".toList),
    "=>".toList, "into".toList,
    quoted "=>" ++ " is deprecated, use ".toList ++ quoted "into",
    DiagnosticSeverityWarning, true, none⟩,
   ⟨"deprecated-comment-slash", findAllOf matchCommentSlash,
    "//".toList, "--".toList,
    quoted "//" ++ " comments are deprecated, use ".toList ++ quoted "--",
    DiagnosticSeverityWarning, true, some commentSlashFix⟩,
   ⟨"deprecated-parse-zson", findAllOf (matchWordParen "parse_zson".toList),
    "parse_zson".toList, "parse_sup".toList,
    quoted "parse_zson" ++ " is deprecated, use ".toList ++ quoted "parse_sup",
    DiagnosticSeverityWarning, true, some parseZsonFix⟩,
   ⟨"implicit-this-grep", findAllOf (fun s p => (matchGrep s p).map (·.1)),
    "grep(pattern)".toList, "grep(pattern, this)".toList,
    "grep() requires explicit ".toList ++ quoted "this" ++ " argument".toList,
    DiagnosticSeverityWarning, true, some grepFix⟩,
   ⟨"implicit-this-is", findAllOf (fun s p => (matchIs s p).map (·.1)),
    "is(<type>)".toList, "is(this, <type>)".toList,
    "is() requires explicit ".toList ++ quoted "this" ++ " argument".toList,
    DiagnosticSeverityWarning, true, some isFix⟩,
   ⟨"implicit-this-nest-dotted", findAllOf matchNestDotted,
    "nest_dotted()".toList, "nest_dotted(this)".toList,
    "nest_dotted() requires explicit ".toList ++ quoted "this" ++ " argument".toList,
    DiagnosticSeverityWarning, true, some nestDottedFix⟩,
   ⟨"deprecated-cast-time", findAllOf (fun s p => (matchCast "time".toList s p).map (·.1)),
    "time(".toList ++ quoted "..." ++ ")".toList, quoted "..." ++ "::time".toList,
    "Function-style cast deprecated, use ".toList ++ quoted "::time",
    DiagnosticSeverityWarning, true, some (castFix "time")⟩,
   ⟨"deprecated-cast-duration", findAllOf (fun s p => (matchCast "duration".toList s p).map (·.1)),
    "duration(".toList ++ quoted "..." ++ ")".toList, quoted "..." ++ "::duration".toList,
    "Function-style cast deprecated, use ".toList ++ quoted "::duration",
    DiagnosticSeverityWarning, true, some (castFix "duration")⟩,
   ⟨"deprecated-cast-ip", findAllOf (fun s p => (matchCast "ip".toList s p).map (·.1)),
    "ip(".toList ++ quoted "..." ++ ")".toList, quoted "..." ++ "::ip".toList,
    "Function-style cast deprecated, use ".toList ++ quoted "::ip",
    DiagnosticSeverityWarning, true, some (castFix "ip")⟩,
   ⟨"deprecated-cast-net", findAllOf (fun s p => (matchCast "net".toList s p).map (·.1)),
    "net(".toList ++ quoted "..." ++ ")".toList, quoted "..." ++ "::net".toList,
    "Function-style cast deprecated, use ".toList ++ quoted "::net",
    DiagnosticSeverityWarning, true, some (castFix "net")⟩,
   ⟨"removed-crop", findAllOf (matchWordParen "crop".toList),
    "crop()".toList, [],
    quoted "crop()" ++ " was removed, use explicit casting".toList,
    DiagnosticSeverityError, false, none⟩,
   ⟨"removed-fill", findAllOf (matchWordParen "fill".toList),
    "fill()".toList, [],
    quoted "fill()" ++ " was removed, use explicit casting".toList,
    DiagnosticSeverityError, false, none⟩,
   ⟨"removed-fit", findAllOf (matchWordParen "fit".toList),
    "fit()".toList, [],
    quoted "fit()" ++ " was removed, use explicit casting".toList,
    DiagnosticSeverityError, false, none⟩,
   ⟨"removed-order", findAllOf (matchWordParen "order".toList),
    "order()".toList, [],
    quoted "order()" ++ " was removed, use explicit casting".toList,
    DiagnosticSeverityError, false, none⟩,
   ⟨"removed-shape", findAllOf (matchWordParen "shape".toList),
    "shape()".toList, [],
    quoted "shape()" ++ " was removed, use explicit casting".toList,
    DiagnosticSeverityError, false, none⟩]

/-- The per-match body of the `getMigrationDiagnostics` loops: suppression
past the line's `--` marker, the comment-slash URL guard and range
narrowing, then the diagnostic and its optional fix. -/
def mkMigrationDiag (lineNum : Nat) (line : List Char) (commentIdx : Option Nat)
    (m : Migration) (se : Nat × Nat) : Option MigrationDiagnostic :=
  let startCol0 := se.1
  let endCol := se.2
  if (match commentIdx with | some ci => decide (startCol0 > ci) | none => false) then none
  else
    let matchStr := slice line se.1 se.2
    if m.Code = "deprecated-comment-slash" && containsSub matchStr [':', '/', '/'] then none
    else
      let startCol :=
        if m.Code = "deprecated-comment-slash" && matchStr.length > 2 &&
            matchStr.drop (matchStr.length - 2) = ['/', '/'] then endCol - 2
        else startCol0
      let fix :=
        if m.HasAutoFix then
          some (TextEdit.mk ⟨⟨lineNum, se.1⟩, ⟨lineNum, se.2⟩⟩
            (match m.FixFunc with
             | some f => f matchStr
             | none => m.NewText))
        else none
      some ⟨⟨⟨⟨lineNum, startCol⟩, ⟨lineNum, endCol⟩⟩, m.Severity, m.Code,
             "superdb-lsp", m.Message⟩, fix⟩

/-- `migration.go` `getMigrationDiagnostics` (the spec's `scanMigrations`):
per line, per rule in registry order, all pattern matches, filtered and
adjusted by `mkMigrationDiag`. -/
def getMigrationDiagnostics (text : List Char) : List MigrationDiagnostic :=
  ((splitNl text).enum.map (fun le =>
    (migrations.map (fun m =>
      ((m.find le.2).filterMap
        (mkMigrationDiag le.1 le.2 (indexOfSub le.2 ['-', '-']) m)))).flatten)).flatten

/-- `migration.go` `diagnosticKey`: `Code + ":" + rune(line/col) + ...`. -/
def diagnosticKey (d : Diagnostic) : List Char :=
  d.Code.toList ++ [':'] ++ [Char.ofNat d.Range.Start.Line] ++ [':'] ++
  [Char.ofNat d.Range.Start.Character] ++ [':'] ++ [Char.ofNat d.Range.End.Line] ++
  [':'] ++ [Char.ofNat d.Range.End.Character]

/-- An entry of the `fixableDiags` map: its key, and the diagnostic with its
(necessarily present) fix. -/
structure FixEntry where
  key : List Char
  Diag : Diagnostic
  Fix : TextEdit
deriving DecidableEq, Repr

/-- Map insertion with overwrite-on-duplicate-key, keeping first-insertion
order for the canonical iteration. -/
def insertEntry (acc : List FixEntry) (e : FixEntry) : List FixEntry :=
  if acc.any (fun x => x.key = e.key) then
    acc.map (fun x => if x.key = e.key then e else x)
  else acc ++ [e]

/-- The contents of the `fixableDiags` map built by
`getCodeActionsForDiagnostics`, in insertion order. -/
def fixableEntries (text : List Char) : List FixEntry :=
  (getMigrationDiagnostics text).foldl
    (fun acc md =>
      match md.Fix with
      | some f => insertEntry acc ⟨diagnosticKey md.Diagnostic, md.Diagnostic, f⟩
      | none => acc)
    []

/-- Map lookup by diagnostic key. -/
def lookupEntry (l : List FixEntry) (k : List Char) : Option FixEntry :=
  l.find? (fun e => e.key = k)

/-- `migration.go` `comparePositions`. -/
def comparePositions (a b : Position) : Int :=
  if a.Line < b.Line then -1
  else if a.Line > b.Line then 1
  else if a.Character < b.Character then -1
  else if a.Character > b.Character then 1
  else 0

/-- One outer iteration of the `sortEditsReverse` selection loop: thread the
running maximum through the tail, leaving displaced elements in place. -/
def sortPass (m : TextEdit) : List TextEdit → TextEdit × List TextEdit
  | [] => (m, [])
  | x :: xs =>
    if comparePositions m.Range.Start x.Range.Start < 0 then
      let p := sortPass x xs
      (p.1, m :: p.2)
    else
      let p := sortPass m xs
      (p.1, x :: p.2)

/-- The `sortEditsReverse` outer loop with fuel (the list length). -/
def selSortF : Nat → List TextEdit → List TextEdit
  | 0, l => l
  | _ + 1, [] => []
  | fuel + 1, x :: xs =>
    let p := sortPass x xs
    p.1 :: selSortF fuel p.2

/-- `migration.go` `sortEditsReverse`: sort edits in reverse document order
(non-increasing start position). -/
def sortEditsReverse (edits : List TextEdit) : List TextEdit :=
  selSortF edits.length edits

/-- The individual quick-fix actions of `getCodeActionsForDiagnostics`: one
per requested diagnostic found (by key) in the fixable map. -/
def quickFixActions (uri : String) (text : List Char)
    (requestedDiags : List Diagnostic) : List CodeAction :=
  requestedDiags.filterMap (fun rd =>
    (lookupEntry (fixableEntries text) (diagnosticKey rd)).map (fun e =>
      ⟨"Replace with ".toList ++ [apos] ++ e.Fix.NewText ++ [apos],
       CodeActionKindQuickFix, [e.Diag], true,
       some ⟨[(uri, [e.Fix])]⟩⟩))

/-- The fix-all action of `getCodeActionsForDiagnostics`, built by iterating
the fixable map in the order `order` (Go's map iteration order is
unspecified, so it is a parameter; `order` ranges over permutations of
`fixableEntries text`). -/
def fixAllActions (uri : String) (order : List FixEntry) : List CodeAction :=
  if order.length > 1 then
    [⟨"Fix all deprecated syntax".toList, CodeActionKindSourceFixAll,
      order.map FixEntry.Diag, false,
      some ⟨[(uri, sortEditsReverse (order.map FixEntry.Fix))]⟩⟩]
  else []

/-- `migration.go` `getCodeActionsForDiagnostics` with the map iteration
order made explicit. -/
def getCodeActionsWith (uri : String) (text : List Char)
    (requestedDiags : List Diagnostic) (order : List FixEntry) : List CodeAction :=
  quickFixActions uri text requestedDiags ++ fixAllActions uri order

/-- `migration.go` `getCodeActionsForDiagnostics` (the spec's
`buildCodeActions`), with the canonical (insertion-order) map iteration. -/
def getCodeActionsForDiagnostics (uri : String) (text : List Char)
    (requestedDiags : List Diagnostic) : List CodeAction :=
  getCodeActionsWith uri text requestedDiags (fixableEntries text)

/-- Two ranges on the same line overlap when each starts before the other
ends (half-open column intervals). -/
def rangesOverlap (a b : SuperdbLsp.Range) : Bool :=
  a.Start.Line = b.Start.Line && a.Start.Character < b.End.Character &&
  b.Start.Character < a.End.Character

/-- Does an edit list contain two distinct overlapping edits? -/
def hasOverlappingPair : List TextEdit → Bool
  | [] => false
  | e :: es => es.any (fun x => rangesOverlap e.Range x.Range) || hasOverlappingPair es

/-- The edits an action carries for document `uri`. -/
def editsOf (uri : String) (a : CodeAction) : List TextEdit :=
  match a.Edit with
  | some w => ((w.Changes.find? (fun p => p.1 = uri)).map (·.2)).getD []
  | none => []

/-- Does the text contain a star-slash close marker (at adjacent
positions)? -/
def hasClose : List Char → Bool
  | x :: y :: r => (x = '*' && y = '/') || hasClose (y :: r)
  | _ => false

/-! ## Theorems -/

/-- `takeWhile`/`dropWhile` reassemble the list. -/
theorem takeWhile_dropWhile_append (p : Char → Bool) (l : List Char) :
    l.takeWhile p ++ l.dropWhile p = l :=
  List.takeWhile_append_dropWhile p l

/-- `blockRest` consumes a prefix: consumed part plus rest is the input. -/
theorem blockRest_append : ∀ l : List Char, (blockRest l).1 ++ (blockRest l).2 = l
  | [] => rfl
  | [_] => rfl
  | x :: y :: r => by
    simp only [blockRest]
    split
    · simp_all
    · simpa using blockRest_append (y :: r)

/-- `strBody` consumes a prefix. -/
theorem strBody_append (q : Char) : ∀ l : List Char,
    (strBody q l).1 ++ (strBody q l).2 = l
  | [] => rfl
  | [c] => by
    simp only [strBody]
    split_ifs <;> simp
  | c :: d :: ds => by
    simp only [strBody]
    split_ifs
    · simp
    · simpa using strBody_append q ds
    · simpa using strBody_append q (d :: ds)

/-- A successful `regexBody` scan consumes a prefix. -/
theorem regexBody_append : ∀ l : List Char, ∀ t r : List Char,
    regexBody l = some (t, r) → t ++ r = l
  | [], _, _, h => by simp [regexBody] at h
  | [c], t, r, h => by
    simp only [regexBody] at h
    split_ifs at h
    · obtain ⟨rfl, rfl⟩ := by simpa using h
      simp_all
    all_goals simp_all
  | c :: d :: ds, t, r, h => by
    simp only [regexBody] at h
    split_ifs at h
    · obtain ⟨rfl, rfl⟩ := by simpa using h
      simp_all
    · rw [Option.map_eq_some'] at h
      obtain ⟨p, hp, he⟩ := h
      have := regexBody_append ds p.1 p.2 (by rw [hp])
      cases he
      simp_all
    · rw [Option.map_eq_some'] at h
      obtain ⟨p, hp, he⟩ := h
      have := regexBody_append (d :: ds) p.1 p.2 (by rw [hp])
      cases he
      simp_all

/-- `expPart` consumes a prefix. -/
theorem expPart_append : ∀ l : List Char, (expPart l).1 ++ (expPart l).2 = l
  | [] => rfl
  | [c] => by
    simp only [expPart]
    split_ifs <;> simp
  | c :: d :: ds => by
    simp only [expPart]
    split_ifs
    · simp [takeWhile_dropWhile_append isDigit ds]
    · simp [takeWhile_dropWhile_append isDigit (d :: ds)]
    · simp

/-- `scanNumber` consumes a prefix. -/
theorem scanNumber_append : ∀ l : List Char, (scanNumber l).1 ++ (scanNumber l).2 = l
  | [] => rfl
  | [c] => by
    simp only [scanNumber]
    split_ifs
    · simp_all
    · have h1 := takeWhile_dropWhile_append (fun ch => isDigit ch || ch = '.') [c]
      have h2 := expPart_append ([c].dropWhile (fun ch => isDigit ch || ch = '.'))
      have h3 := takeWhile_dropWhile_append isLetter
        (expPart ([c].dropWhile (fun ch => isDigit ch || ch = '.'))).2
      simp only [List.append_assoc]
      rw [h3, h2, h1]
  | c :: d :: ds => by
    simp only [scanNumber]
    split_ifs
    · simp [takeWhile_dropWhile_append isHexDigit ds]
    · have h1 := takeWhile_dropWhile_append (fun ch => isDigit ch || ch = '.') (c :: d :: ds)
      have h2 := expPart_append ((c :: d :: ds).dropWhile (fun ch => isDigit ch || ch = '.'))
      have h3 := takeWhile_dropWhile_append isLetter
        (expPart ((c :: d :: ds).dropWhile (fun ch => isDigit ch || ch = '.'))).2
      simp only [List.append_assoc]
      rw [h3, h2, h1]

/-- `scanBacktick` consumes the backtick-quoted word. -/
theorem scanBacktick_append (cs : List Char) :
    (scanBacktick cs).1 ++ (scanBacktick cs).2 = backtickChar :: cs := by
  simp only [scanBacktick]
  split
  · next d ds h =>
    have h2 := takeWhile_dropWhile_append (fun c => c ≠ backtickChar) cs
    rw [h] at h2
    simp only [List.cons_append, List.append_assoc, List.singleton_append,
      List.nil_append]
    rw [h2]
  · next h =>
    have h2 := takeWhile_dropWhile_append (fun c => c ≠ backtickChar) cs
    rw [h, List.append_nil] at h2
    simp only [List.append_nil]
    rw [h2]

/-- `scanRest` consumes a prefix. -/
theorem scanRest_append (c : Char) (cs : List Char) :
    (scanRest c cs).1.value ++ (scanRest c cs).2 = c :: cs := by
  cases cs with
  | nil =>
    simp only [scanRest]
    split_ifs <;> try (first | rfl | (simp_all; done))
    · exact scanNumber_append [c]
    · rename_i hb _
      rw [hb]
      exact scanBacktick_append []
    · rename_i hb _
      rw [hb]
      exact scanBacktick_append []
  | cons d ds =>
    simp only [scanRest]
    split_ifs <;> try (first | rfl | (simp_all; done))
    · rename_i h
      simp only [Bool.and_eq_true, decide_eq_true_eq, List.head?_cons,
        Option.some.injEq] at h
      obtain ⟨⟨hc, hd⟩, hh⟩ := h
      cases ds with
      | nil => simp at hh
      | cons e es => simp_all
    · exact scanNumber_append (c :: d :: ds)
    · rename_i hb _
      rw [hb]
      exact scanBacktick_append (d :: ds)
    · rename_i hb _
      rw [hb]
      exact scanBacktick_append (d :: ds)

/-- Every step of the lexer consumes a prefix of the input: the emitted
literal followed by the remaining input is exactly the input. -/
theorem scanToken_append (prev : Option Token) (l : List Char) :
    (scanToken prev l).1.value ++ (scanToken prev l).2 = l := by
  cases l with
  | nil => rfl
  | cons c cs =>
    simp only [scanToken]
    split_ifs <;> try (first | rfl | (simp_all; done))
    · rename_i h
      simp only [Bool.and_eq_true, decide_eq_true_eq] at h
      obtain ⟨hc, hh⟩ := h
      cases cs with
      | nil => simp at hh
      | cons d ds =>
        obtain rfl : d = '*' := by simpa using hh
        simpa using blockRest_append ds
    · simpa using strBody_append c cs
    · rename_i h
      simp only [Bool.and_eq_true] at h
      obtain ⟨_, hh⟩ := h
      cases cs with
      | nil => simp at hh
      | cons d ds => simpa using strBody_append d ds
    · rename_i h
      simp only [Bool.and_eq_true, decide_eq_true_eq] at h
      obtain ⟨hc, _⟩ := h
      cases hr : regexBody cs with
      | none =>
        simp only [hr]
        exact scanRest_append c cs
      | some p =>
        simp only [hr]
        subst hc
        simpa using regexBody_append cs p.1 p.2 (by rw [hr])
    · exact scanRest_append c cs

/-- `scanNumber` starting at a digit or dot consumes at least one character. -/
theorem scanNumber_ne (c : Char) (cs : List Char)
    (h : (isDigit c || c = '.') = true) : (scanNumber (c :: cs)).1 ≠ [] := by
  cases cs with
  | nil =>
    simp only [scanNumber]
    split_ifs with h1
    · simp
    · simp [List.takeWhile_cons, h]
  | cons d ds =>
    simp only [scanNumber]
    split_ifs with h1
    · simp
    · simp [List.takeWhile_cons, h]

/-- `scanBacktick` consumes at least the backtick. -/
theorem scanBacktick_ne (cs : List Char) : (scanBacktick cs).1 ≠ [] := by
  simp only [scanBacktick]
  split <;> simp

/-- `scanRest` emits a non-empty literal. -/
theorem scanRest_ne (c : Char) (cs : List Char) : (scanRest c cs).1.value ≠ [] := by
  have identStep :
      (isLetter c || decide (c = '_') || decide (c = backtickChar)) = true →
      ¬c = backtickChar → isIdentChar c = true := by
    intro hg hb
    have hg2 : isLetter c = true ∨ c = '_' ∨ c = backtickChar := by
      simpa [or_assoc] using hg
    rcases hg2 with h1 | h1 | h1
    · simp [isIdentChar, h1]
    · simp [isIdentChar, h1]
    · exact absurd h1 hb
  cases cs with
  | nil =>
    simp only [scanRest]
    split_ifs <;> try simp
    · rename_i h
      exact scanNumber_ne c [] (by simpa using Or.inl (by simpa using h))
    · rename_i hb _
      exact scanBacktick_ne []
    · rename_i hb _
      exact scanBacktick_ne []
    · rename_i hg hb _
      exact identStep hg hb
    · rename_i hg hb _
      exact identStep hg hb
  | cons d ds =>
    simp only [scanRest]
    split_ifs <;> try simp
    · rename_i h
      have hp : (isDigit c || c = '.') = true := by
        have h2 : isDigit c = true ∨ (c = '.' ∧ isDigit d = true) := by
          simpa using h
        rcases h2 with h1 | ⟨h1, _⟩ <;> simp [h1]
      exact scanNumber_ne c (d :: ds) hp
    · rename_i hb _
      exact scanBacktick_ne (d :: ds)
    · rename_i hb _
      exact scanBacktick_ne (d :: ds)
    · rename_i hg hb _
      exact identStep hg hb
    · rename_i hg hb _
      exact identStep hg hb

/-- Every lexer step on non-empty input emits a non-empty literal. -/
theorem scanToken_ne (prev : Option Token) (c : Char) (cs : List Char) :
    (scanToken prev (c :: cs)).1.value ≠ [] := by
  simp only [scanToken]
  split_ifs <;>
    try (first | (simp; done) | (simp_all [List.takeWhile_cons]; done))
  · cases hr : regexBody cs with
    | none =>
      simp only [hr]
      exact scanRest_ne c cs
    | some p => simp [hr]
  · exact scanRest_ne c cs

/-- Every lexer step on non-empty input strictly shrinks the input. -/
theorem scanToken_progress (prev : Option Token) (c : Char) (cs : List Char) :
    (scanToken prev (c :: cs)).2.length < (c :: cs).length := by
  have ha := scanToken_append prev (c :: cs)
  have hne := scanToken_ne prev c cs
  have hl := congrArg List.length ha
  rw [List.length_append] at hl
  have : 0 < (scanToken prev (c :: cs)).1.value.length := List.length_pos.mpr hne
  omega

/-- Unfolding lemma for `tokensText`. -/
theorem tokensText_cons (t : Token) (ts : List Token) :
    tokensText (t :: ts) = t.value ++ tokensText ts := by
  simp [tokensText]

/-- With enough fuel, concatenating the literals of the token list rebuilds
the input text. -/
theorem tokenizeFuel_text : ∀ (fuel : Nat) (prev : Option Token) (l : List Char),
    l.length ≤ fuel → tokensText (tokenizeFuel fuel prev l) = l
  | 0, _, l, h => by
    interval_cases hl : l.length
    · rw [List.length_eq_zero] at hl
      subst hl
      rfl
  | fuel + 1, prev, [], _ => rfl
  | fuel + 1, prev, c :: cs, h => by
    simp only [tokenizeFuel]
    rw [tokensText_cons]
    have hp := scanToken_progress prev c cs
    rw [tokenizeFuel_text fuel _ _ (by omega)]
    exact scanToken_append prev (c :: cs)

/-- C1.  Losslessness round-trip: for every input text, including malformed
input, concatenating the literal values of the tokens returned by
`tokenize`, in sequence order, yields exactly the input. -/
theorem tokenize_lossless (text : List Char) : tokensText (tokenize text) = text :=
  tokenizeFuel_text text.length none text le_rfl

/-- With enough fuel, every token in the token list has a non-empty
literal. -/
theorem tokenizeFuel_value_ne : ∀ (fuel : Nat) (prev : Option Token) (l : List Char)
    (t : Token), t ∈ tokenizeFuel fuel prev l → t.value ≠ []
  | 0, _, _, _, h => by simp [tokenizeFuel] at h
  | fuel + 1, prev, [], _, h => by simp [tokenizeFuel] at h
  | fuel + 1, prev, c :: cs, t, h => by
    simp only [tokenizeFuel, List.mem_cons] at h
    rcases h with rfl | h
    · exact scanToken_ne prev c cs
    · exact tokenizeFuel_value_ne fuel _ _ t h

/-- C9.  Non-empty token literals: every token returned by `tokenize` has a
non-empty literal value. -/
theorem tokenize_value_ne (text : List Char) (t : Token) (h : t ∈ tokenize text) :
    t.value ≠ [] :=
  tokenizeFuel_value_ne text.length none text t h

/-- C9 witness: the theorem applied to a concrete input and token. -/
theorem tokenize_value_ne_witness :
    (⟨tokenType.tokIdentifier, ['a']⟩ : Token) ∈ tokenize ['a', '+'] ∧
    (⟨tokenType.tokIdentifier, ['a']⟩ : Token).value ≠ [] :=
  ⟨by decide, tokenize_value_ne ['a', '+'] ⟨tokenType.tokIdentifier, ['a']⟩ (by decide)⟩

/-- `scanRest` never emits a regex token. -/
theorem scanRest_typ_ne (c : Char) (cs : List Char) :
    (scanRest c cs).1.typ ≠ tokenType.tokRegexp := by
  cases cs <;> (simp only [scanRest]; split_ifs <;> simp)

/-- A successful `regexBody` scan ends with the closing slash. -/
theorem regexBody_closed : ∀ l t r : List Char, regexBody l = some (t, r) →
    ∃ body, t = body ++ ['/']
  | [], _, _, h => by simp [regexBody] at h
  | [c], t, r, h => by
    simp only [regexBody] at h
    split_ifs at h
    · obtain ⟨rfl, rfl⟩ := by simpa using h
      exact ⟨[], rfl⟩
    all_goals simp_all
  | c :: d :: ds, t, r, h => by
    simp only [regexBody] at h
    split_ifs at h
    · obtain ⟨rfl, rfl⟩ := by simpa using h
      exact ⟨[], rfl⟩
    · rw [Option.map_eq_some'] at h
      obtain ⟨p, hp, he⟩ := h
      obtain ⟨body, hb⟩ := regexBody_closed ds p.1 p.2 (by rw [hp])
      cases he
      exact ⟨c :: d :: body, by simp [hb]⟩
    · rw [Option.map_eq_some'] at h
      obtain ⟨p, hp, he⟩ := h
      obtain ⟨body, hb⟩ := regexBody_closed (d :: ds) p.1 p.2 (by rw [hp])
      cases he
      exact ⟨c :: body, by simp [hb]⟩

/-- `regexBody` on an ordinary character (no slash, newline or backslash)
prepends it and scans on. -/
theorem regexBody_cons_other (c : Char) (l : List Char)
    (h1 : c ≠ '/') (h2 : c ≠ '\n') (h3 : c ≠ '\\') :
    regexBody (c :: l) = (regexBody l).map (fun p => (c :: p.1, p.2)) := by
  cases l with
  | nil => simp [regexBody, h1, h2, h3]
  | cons d ds => simp [regexBody, h1, h2, h3]

/-- The regex scan dies at a newline reached through ordinary characters. -/
theorem regexBody_newline : ∀ a : List Char, ∀ b : List Char,
    (∀ c ∈ a, c ≠ '/' ∧ c ≠ '\n' ∧ c ≠ '\\') →
    regexBody (a ++ '\n' :: b) = none
  | [], b, _ => by
    cases b <;> simp [regexBody]
  | c :: a, b, h => by
    obtain ⟨h1, h2, h3⟩ := h c (by simp)
    have ih := regexBody_newline a b (fun x hx => h x (by simp [hx]))
    rw [List.cons_append, regexBody_cons_other c _ h1 h2 h3, ih]
    rfl

/-- The regex scan closes at the first unescaped slash reached through
ordinary characters. -/
theorem regexBody_slash : ∀ a : List Char, ∀ b : List Char,
    (∀ c ∈ a, c ≠ '/' ∧ c ≠ '\n' ∧ c ≠ '\\') →
    regexBody (a ++ '/' :: b) = some (a ++ ['/'], b)
  | [], b, _ => by
    cases b <;> simp [regexBody]
  | c :: a, b, h => by
    obtain ⟨h1, h2, h3⟩ := h c (by simp)
    have ih := regexBody_slash a b (fun x hx => h x (by simp [hx]))
    rw [List.cons_append, regexBody_cons_other c _ h1 h2 h3, ih]
    simp

/-- The two-character operator set holds no pair starting with a slash. -/
theorem twoCharOp_slash (d : Char) : twoCharOp '/' d = false := by
  simp [twoCharOp]

/-- C5.  Regex-vs-operator disambiguation.  (i) A regex token is emitted only
when the current character is `/` and the predecessor token admits a regex
(start of input, or `canPrecedeRegex`); (ii) `canPrecedeRegex` holds exactly
for whitespace, newline, pipe, operator and keyword tokens and for the
punctuation values `(`, `[`, `,`, `:`; (iii) a successful scan consumed up to
a closing slash; (iv) the scan fails at a newline and (v) succeeds at the
first unescaped slash; (vi) when the scan fails, the slash is re-lexed as the
one-character operator `/`. -/
theorem regex_disambiguation :
    (∀ (prev : Option Token) (l : List Char),
      (scanToken prev l).1.typ = tokenType.tokRegexp →
      l.head? = some '/' ∧
        (prev = none ∨ ∃ t, prev = some t ∧ canPrecedeRegex t = true)) ∧
    (∀ t : Token, canPrecedeRegex t = true ↔
      (t.typ = tokenType.tokWhitespace ∨ t.typ = tokenType.tokNewline ∨
       t.typ = tokenType.tokPipe ∨ t.typ = tokenType.tokOperator ∨
       t.typ = tokenType.tokKeyword ∨
       (t.typ = tokenType.tokPunctuation ∧
        (t.value = ['('] ∨ t.value = ['['] ∨ t.value = [','] ∨ t.value = [':'])))) ∧
    (∀ cs t r : List Char, regexBody cs = some (t, r) →
      (∃ body, t = body ++ ['/']) ∧ t ++ r = cs) ∧
    (∀ a b : List Char, (∀ c ∈ a, c ≠ '/' ∧ c ≠ '\n' ∧ c ≠ '\\') →
      regexBody (a ++ '\n' :: b) = none) ∧
    (∀ a b : List Char, (∀ c ∈ a, c ≠ '/' ∧ c ≠ '\n' ∧ c ≠ '\\') →
      regexBody (a ++ '/' :: b) = some (a ++ ['/'], b)) ∧
    (∀ (prev : Option Token) (cs : List Char),
      (prev = none ∨ ∃ t, prev = some t ∧ canPrecedeRegex t = true) →
      cs.head? ≠ some '*' → regexBody cs = none →
      scanToken prev ('/' :: cs) = (⟨tokenType.tokOperator, ['/']⟩, cs)) := by
  refine ⟨?_, ?_, ?_, regexBody_newline, regexBody_slash, ?_⟩
  · intro prev l h
    cases l with
    | nil => simp [scanToken] at h
    | cons c cs =>
      simp only [scanToken] at h
      split_ifs at h <;>
        try (first
          | (simp_all; done)
          | exact absurd h (scanRest_typ_ne c cs))
      · rename_i hg
        cases hr : regexBody cs with
        | none =>
          simp only [hr] at h
          exact absurd h (scanRest_typ_ne _ cs)
        | some p =>
          have hc : c = '/' := by
            have h2 := hg
            rw [Bool.and_eq_true] at h2
            simpa using h2.1
          refine ⟨by simp [hc], ?_⟩
          cases prev with
          | none => exact Or.inl rfl
          | some t =>
            refine Or.inr ⟨t, rfl, ?_⟩
            have h2 := hg
            rw [Bool.and_eq_true] at h2
            simpa using h2.2
  · intro t
    obtain ⟨typ, v⟩ := t
    cases typ <;> simp [canPrecedeRegex, or_assoc]
  · intro cs t r h
    exact ⟨regexBody_closed cs t r h, regexBody_append cs t r h⟩
  · intro prev cs hallow hstar hnone
    have hm : (match prev with
        | none => true
        | some t => canPrecedeRegex t) = true := by
      rcases hallow with rfl | ⟨t, rfl, ht⟩
      · rfl
      · simpa using ht
    have hsr : scanRest '/' cs = (⟨tokenType.tokOperator, ['/']⟩, cs) := by
      cases cs with
      | nil => simp [scanRest, isOpChar]
      | cons d ds => simp [scanRest, isOpChar, twoCharOp_slash d]
    cases cs with
    | nil => simp [scanToken, hnone, hsr, isHWS]
    | cons d ds =>
      have hd : ¬d = '*' := by simpa using hstar
      simp [scanToken, hnone, hsr, isHWS, hd, hm]

/-- C5 witness: the disambiguation facts applied at concrete inputs — after
a pipe token, `/a/` lexes as a regex; after an identifier, the backtracked
slash is an operator. -/
theorem regex_disambiguation_witness :
    ((scanToken (some ⟨tokenType.tokPipe, ['|']⟩) ['/', 'a', '/']).1.typ =
        tokenType.tokRegexp →
      (['/', 'a', '/'] : List Char).head? = some '/' ∧
        ((some ⟨tokenType.tokPipe, ['|']⟩ : Option Token) = none ∨
          ∃ t, (some ⟨tokenType.tokPipe, ['|']⟩ : Option Token) = some t ∧
            canPrecedeRegex t = true)) ∧
    regexBody ('a' :: '\n' :: []) = none ∧
    scanToken (some ⟨tokenType.tokPipe, ['|']⟩) ['/', 'a'] =
      (⟨tokenType.tokOperator, ['/']⟩, ['a']) := by
  refine ⟨regex_disambiguation.1 (some ⟨tokenType.tokPipe, ['|']⟩) ['/', 'a', '/'], ?_, ?_⟩
  · exact regex_disambiguation.2.2.2.1 ['a'] [] (by decide)
  · exact regex_disambiguation.2.2.2.2.2 (some ⟨tokenType.tokPipe, ['|']⟩) ['a']
      (Or.inr ⟨⟨tokenType.tokPipe, ['|']⟩, rfl, by decide⟩) (by decide) (by decide)

/-- With no close marker in the remaining input, the block-comment loop
consumes everything but the last character (`i+1 < len` stops at the
second-to-last position), which stays in the input. -/
theorem blockRest_noClose : ∀ rest : List Char, hasClose rest = false →
    blockRest rest = (rest.dropLast, rest.drop (rest.length - 1))
  | [], _ => rfl
  | [x], _ => rfl
  | x :: y :: r, h => by
    rw [hasClose, Bool.or_eq_false_iff] at h
    obtain ⟨h1, h2⟩ := h
    have ih := blockRest_noClose (y :: r) h2
    simp only [blockRest, ih]
    rw [if_neg (by simp [h1])]
    refine Prod.ext ?_ ?_
    · simp
    · simp only [List.length_cons, Nat.add_sub_cancel]
      rfl

/-- C6 (amended).  When the lexer begins a token at `/` `*` and no `*/`
occurs in the remaining input, it emits one comment token reaching from the
marker through the second-to-last character of the input, and the final
character (if the marker is not itself the end) is left to be re-lexed as a
separate token; the comment token heads the `tokenize` output. -/
theorem block_comment_unterminated (prev : Option Token) (rest : List Char)
    (h : hasClose rest = false) :
    scanToken prev ('/' :: '*' :: rest) =
      (⟨tokenType.tokComment, '/' :: '*' :: rest.dropLast⟩,
        rest.drop (rest.length - 1)) ∧
    (tokenize ('/' :: '*' :: rest)).head? =
      some ⟨tokenType.tokComment, '/' :: '*' :: rest.dropLast⟩ := by
  have hstep : scanToken prev ('/' :: '*' :: rest) =
      (⟨tokenType.tokComment, '/' :: '*' :: rest.dropLast⟩,
        rest.drop (rest.length - 1)) := by
    simp [scanToken, isHWS, blockRest_noClose rest h]
  refine ⟨hstep, ?_⟩
  have hstep0 : scanToken none ('/' :: '*' :: rest) =
      (⟨tokenType.tokComment, '/' :: '*' :: rest.dropLast⟩,
        rest.drop (rest.length - 1)) := by
    simp [scanToken, isHWS, blockRest_noClose rest h]
  show (tokenizeFuel ('/' :: '*' :: rest).length none ('/' :: '*' :: rest)).head? = _
  rw [List.length_cons, List.length_cons]
  rw [tokenizeFuel]
  simp [hstep0]

/-- C6 counterexample to the claim as stated: the input consisting of a
single-quoted string whose content is the open marker contains `/*` (at
offset 1) with no `*/` after it, yet `tokenize` returns no comment token at
all — the marker is inside a string literal. -/
theorem block_comment_counterexample :
    hasSub ['\'', '/', '*', '\''] 1 ['/', '*'] = true ∧
    hasClose (List.drop 1 ['\'', '/', '*', '\'']) = false ∧
    (tokenize ['\'', '/', '*', '\'']).all
      (fun t => decide (t.typ ≠ tokenType.tokComment)) = true := by decide

/-- C6 witness: the amended theorem applied at a concrete unterminated block
comment. -/
theorem block_comment_unterminated_witness :
    scanToken none ['/', '*', 'a', 'b'] =
      (⟨tokenType.tokComment, ['/', '*', 'a']⟩, ['b']) ∧
    (tokenize ['/', '*', 'a', 'b']).head? =
      some ⟨tokenType.tokComment, ['/', '*', 'a']⟩ :=
  block_comment_unterminated none ['a', 'b'] (by decide)

/-- C4 counterexample to the claim as stated: a `[` punctuation token does
not increment the indent depth (formatting `[` from the initial state leaves
the depth at 0, not 1). -/
theorem bracket_indent_counterexample :
    (fmtStep ⟨0, false, false, false, false⟩ fmtInit
        ⟨tokenType.tokPunctuation, ['[']⟩ none).indent ≠ fmtInit.indent + 1 := by
  decide

/-- C4 (amended).  Indent transitions of the formatter: `(` and `{`
increment the depth (and are emitted before the increment, at the old
depth); `)` and `}` decrement it by truncated subtraction (so the depth is
floored at 0), the decrement taking effect before emission — a `}` at line
start is indented with the decremented depth; every other punctuation value
(including `[` and `]`) and every non-punctuation token leaves the depth
unchanged. -/
theorem bracket_indent (o : FormattingOptions) (st : FmtState) (tok : Token)
    (next : Option Token) :
    (tok.typ = tokenType.tokPunctuation →
      ((tok.value = ['('] ∨ tok.value = ['{']) →
        (fmtStep o st tok next).indent = st.indent + 1 ∧
        (st.lineStart = true →
          (fmtStep o st tok next).out = st.out ++ indentOf o st.indent ++ tok.value)) ∧
      ((tok.value = [')'] ∨ tok.value = ['}']) →
        (fmtStep o st tok next).indent = st.indent - 1) ∧
      (tok.value = ['}'] → st.lineStart = true →
        (fmtStep o st tok next).out = st.out ++ indentOf o (st.indent - 1) ++ tok.value) ∧
      (tok.value ≠ ['('] → tok.value ≠ ['{'] → tok.value ≠ [')'] → tok.value ≠ ['}'] →
        (fmtStep o st tok next).indent = st.indent)) ∧
    (tok.typ ≠ tokenType.tokPunctuation → (fmtStep o st tok next).indent = st.indent) := by
  obtain ⟨typ, v⟩ := tok
  constructor
  · intro htyp
    subst htyp
    refine ⟨?_, ?_, ?_, ?_⟩
    · rintro (rfl | rfl)
      · constructor
        · simp [fmtStep, fmtPunct]
        · intro hls
          simp [fmtStep, fmtPunct, hls]
      · constructor
        · simp [fmtStep, fmtPunct]
        · intro hls
          simp [fmtStep, fmtPunct, hls]
    · rintro (rfl | rfl)
      · simp [fmtStep, fmtPunct]
      · simp [fmtStep, fmtPunct]
    · rintro rfl hls
      simp [fmtStep, fmtPunct, hls]
    · intro h1 h2 h3 h4
      simp only [fmtStep, fmtPunct]
      split_ifs <;> simp_all
  · intro htyp
    cases typ <;> try (simp_all [fmtStep, fmtOp]; done)
    simp_all [fmtStep, fmtOp]
    split_ifs <;> simp

/-- C4 witness: the amended theorem applied at a concrete state and token —
a `{` at depth 2 goes to depth 3. -/
theorem bracket_indent_witness :
    (fmtStep ⟨2, true, false, false, false⟩
        ⟨[], 2, true, ⟨tokenType.tokWhitespace, []⟩⟩
        ⟨tokenType.tokPunctuation, ['{']⟩ none).indent = 2 + 1 :=
  (((bracket_indent ⟨2, true, false, false, false⟩
      ⟨[], 2, true, ⟨tokenType.tokWhitespace, []⟩⟩
      ⟨tokenType.tokPunctuation, ['{']⟩ none).1 rfl).1 (Or.inr rfl)).1

/-- C2 counterexample: formatting the record text twice inserts an extra
space after the colon, so `format(format(T,O),O) ≠ format(T,O)` at
`T = "{a:1}"` with all post-pass options off. -/
theorem format_idempotent_counterexample :
    formatDocument ['{', 'a', ':', '1', '}'] ⟨0, false, false, false, false⟩ =
      ['{', ' ', 'a', ':', ' ', '1', '}'] ∧
    formatDocument (formatDocument ['{', 'a', ':', '1', '}']
        ⟨0, false, false, false, false⟩) ⟨0, false, false, false, false⟩ =
      ['{', ' ', 'a', ':', ' ', ' ', '1', '}'] ∧
    formatDocument (formatDocument ['{', 'a', ':', '1', '}']
        ⟨0, false, false, false, false⟩) ⟨0, false, false, false, false⟩ ≠
      formatDocument ['{', 'a', ':', '1', '}'] ⟨0, false, false, false, false⟩ := by
  refine ⟨by decide, by decide, by decide⟩

/-- C2 (amended).  Formatting is a pure function of its inputs but is not
idempotent for every input (a second pass can insert an extra space after a
record colon); it is idempotent on the spec's pipeline scenario: formatting
`"from   test  |   count()"` with two-space indents yields
`"from test\n| count()"`, and formatting that output reproduces it. -/
theorem format_scenario_idempotent :
    formatDocument "from   test  |   count()".toList ⟨2, true, false, false, false⟩ =
      ('f' :: 'r' :: 'o' :: 'm' :: ' ' :: 't' :: 'e' :: 's' :: 't' :: '\n' ::
        '|' :: ' ' :: 'c' :: 'o' :: 'u' :: 'n' :: 't' :: '(' :: ')' :: []) ∧
    formatDocument (formatDocument "from   test  |   count()".toList
        ⟨2, true, false, false, false⟩) ⟨2, true, false, false, false⟩ =
      formatDocument "from   test  |   count()".toList ⟨2, true, false, false, false⟩ := by
  refine ⟨by decide, by decide⟩

/-- C3.  Fix-all overlap at the failing input `grep(//)`: the comment-slash
rule matches inside the grep match, so the single fix-all batch carries the
edits `[0,8) ↦ grep('', this)` and `[4,7) ↦ (--`, which overlap.  The code
evaluated at the failing input contradicts the pairwise non-overlap claim. -/
theorem fixAll_overlap_at_grep :
    (getCodeActionsForDiagnostics "file:///t"
        ['g', 'r', 'e', 'p', '(', '/', '/', ')'] []).map
      (fun a => (a.Kind, (editsOf "file:///t" a).map (fun e => e.Range),
                 hasOverlappingPair (editsOf "file:///t" a))) =
    [(CodeActionKindSourceFixAll,
      [⟨⟨0, 4⟩, ⟨0, 7⟩⟩, ⟨⟨0, 0⟩, ⟨0, 8⟩⟩], true)] := by
  decide

/-- One pass of the selection loop permutes its input (the running maximum
ends up in front, displaced elements stay behind). -/
theorem sortPass_perm (m : TextEdit) : ∀ xs : List TextEdit,
    ((sortPass m xs).1 :: (sortPass m xs).2).Perm (m :: xs)
  | [] => List.Perm.refl _
  | x :: xs => by
    simp only [sortPass]
    split_ifs
    · have ih := sortPass_perm x xs
      exact (List.Perm.swap m (sortPass x xs).1 (sortPass x xs).2).trans (ih.cons m)
    · have ih := sortPass_perm m xs
      exact ((List.Perm.swap x (sortPass m xs).1 (sortPass m xs).2).trans
        (ih.cons x)).trans (List.Perm.swap m x xs)

/-- The fueled selection sort permutes its input. -/
theorem selSortF_perm : ∀ (fuel : Nat) (l : List TextEdit),
    l.length ≤ fuel → (selSortF fuel l).Perm l
  | 0, l, h => by
    rw [show l = [] from List.length_eq_zero.mp (Nat.le_zero.mp h)]
    exact List.Perm.refl _
  | fuel + 1, [], _ => List.Perm.refl _
  | fuel + 1, x :: xs, h => by
    simp only [selSortF]
    have hp := sortPass_perm x xs
    have hlen : (sortPass x xs).2.length = xs.length := by
      have := hp.length_eq
      simpa using this
    have ih := selSortF_perm fuel (sortPass x xs).2
      (by simp only [hlen]; simpa using h)
    exact ((ih.cons (sortPass x xs).1).trans hp)

/-- `sortEditsReverse` permutes its input. -/
theorem sortEditsReverse_perm (l : List TextEdit) : (sortEditsReverse l).Perm l :=
  selSortF_perm l.length l le_rfl

/-- The edits an action built for `uri` carries for `uri`. -/
theorem editsOf_mk (uri : String) (T : List Char) (K : String)
    (D : List Diagnostic) (P : Bool) (ed : List TextEdit) :
    editsOf uri ⟨T, K, D, P, some ⟨[(uri, ed)]⟩⟩ = ed := by
  simp [editsOf]

/-- C7 counterexample: with the two fixable diagnostics of `yield func`, two
admissible map-iteration orders (Go leaves the order unspecified) give
different results — the fix-all action's diagnostics lists differ. -/
theorem codeActions_order_counterexample :
    ((fixableEntries ['y', 'i', 'e', 'l', 'd', ' ', 'f', 'u', 'n', 'c']).reverse).Perm
      (fixableEntries ['y', 'i', 'e', 'l', 'd', ' ', 'f', 'u', 'n', 'c']) ∧
    getCodeActionsWith "u" ['y', 'i', 'e', 'l', 'd', ' ', 'f', 'u', 'n', 'c'] []
        ((fixableEntries ['y', 'i', 'e', 'l', 'd', ' ', 'f', 'u', 'n', 'c']).reverse) ≠
      getCodeActionsForDiagnostics "u" ['y', 'i', 'e', 'l', 'd', ' ', 'f', 'u', 'n', 'c'] [] :=
  ⟨List.reverse_perm _, by decide⟩

/-- C7 (amended).  `getCodeActionsForDiagnostics` is a pure, stateless
recomputation; any two calls (any two admissible iteration orders of the
fixable-diagnostics map) return the same quick-fix actions, and fix-all
actions agreeing on title, kind and preferredness whose diagnostics lists
and edit batches are permutations of one another.  Only the order of the
fix-all action's diagnostics list (and the relative order of equal-start
edits) follows the unspecified map iteration order. -/
theorem codeActions_deterministic_up_to_order (uri : String) (text : List Char)
    (requestedDiags : List Diagnostic) (order : List FixEntry)
    (h : order.Perm (fixableEntries text)) :
    getCodeActionsWith uri text requestedDiags order =
      quickFixActions uri text requestedDiags ++ fixAllActions uri order ∧
    (fixAllActions uri order).length =
      (fixAllActions uri (fixableEntries text)).length ∧
    (∀ a b : CodeAction, fixAllActions uri order = [a] →
      fixAllActions uri (fixableEntries text) = [b] →
      a.Title = b.Title ∧ a.Kind = b.Kind ∧ a.IsPreferred = b.IsPreferred ∧
      a.Diagnostics.Perm b.Diagnostics ∧ (editsOf uri a).Perm (editsOf uri b)) := by
  refine ⟨rfl, ?_, ?_⟩
  · simp only [fixAllActions, h.length_eq]
    split_ifs <;> rfl
  · intro a b ha hb
    simp only [fixAllActions] at ha hb
    rw [h.length_eq] at ha
    split_ifs at ha hb with h1
    · obtain rfl : a = _ := by simpa using ha.symm
      obtain rfl : b = _ := by simpa using hb.symm
      refine ⟨rfl, rfl, rfl, h.map FixEntry.Diag, ?_⟩
      rw [editsOf_mk, editsOf_mk]
      exact ((sortEditsReverse_perm _).trans (h.map FixEntry.Fix)).trans
        (sortEditsReverse_perm _).symm

/-- C7 witness: the amended theorem applied at `yield func` with the
reversed iteration order. -/
theorem codeActions_deterministic_witness :
    getCodeActionsWith "u" ['y', 'i', 'e', 'l', 'd', ' ', 'f', 'u', 'n', 'c'] []
        ((fixableEntries ['y', 'i', 'e', 'l', 'd', ' ', 'f', 'u', 'n', 'c']).reverse) =
      quickFixActions "u" ['y', 'i', 'e', 'l', 'd', ' ', 'f', 'u', 'n', 'c'] [] ++
        fixAllActions "u"
          ((fixableEntries ['y', 'i', 'e', 'l', 'd', ' ', 'f', 'u', 'n', 'c']).reverse) ∧
    (fixAllActions "u"
        ((fixableEntries ['y', 'i', 'e', 'l', 'd', ' ', 'f', 'u', 'n', 'c']).reverse)).length =
      (fixAllActions "u"
        (fixableEntries ['y', 'i', 'e', 'l', 'd', ' ', 'f', 'u', 'n', 'c'])).length ∧
    (∀ a b : CodeAction,
      fixAllActions "u"
          ((fixableEntries ['y', 'i', 'e', 'l', 'd', ' ', 'f', 'u', 'n', 'c']).reverse) = [a] →
      fixAllActions "u"
          (fixableEntries ['y', 'i', 'e', 'l', 'd', ' ', 'f', 'u', 'n', 'c']) = [b] →
      a.Title = b.Title ∧ a.Kind = b.Kind ∧ a.IsPreferred = b.IsPreferred ∧
      a.Diagnostics.Perm b.Diagnostics ∧ (editsOf "u" a).Perm (editsOf "u" b)) :=
  codeActions_deterministic_up_to_order "u"
    ['y', 'i', 'e', 'l', 'd', ' ', 'f', 'u', 'n', 'c'] []
    ((fixableEntries ['y', 'i', 'e', 'l', 'd', ' ', 'f', 'u', 'n', 'c']).reverse)
    (List.reverse_perm _)

/-- An index holding a value is in bounds. -/
theorem getElem?_some_lt (s : List Char) (i : Nat) (c : Char) (h : s[i]? = some c) :
    i < s.length := by
  by_contra hn
  rw [List.getElem?_eq_none (by omega)] at h
  simp at h

/-- `skipWsF` never moves backwards. -/
theorem skipWsF_ge : ∀ (fuel : Nat) (s : List Char) (i : Nat), i ≤ skipWsF fuel s i
  | 0, _, _ => le_rfl
  | fuel + 1, s, i => by
    simp only [skipWsF]
    split
    · split_ifs
      · exact le_trans (by omega) (skipWsF_ge fuel s (i + 1))
      · exact le_rfl
    · exact le_rfl

/-- `skipWsF` stays within the string. -/
theorem skipWsF_le : ∀ (fuel : Nat) (s : List Char) (i : Nat), i ≤ s.length →
    skipWsF fuel s i ≤ s.length
  | 0, _, _, h => h
  | fuel + 1, s, i, h => by
    simp only [skipWsF]
    split
    · next c hc =>
      split_ifs
      · exact skipWsF_le fuel s (i + 1) (getElem?_some_lt s i c hc)
      · exact h
    · exact h

/-- `skipWs` never moves backwards. -/
theorem skipWs_ge (s : List Char) (i : Nat) : i ≤ skipWs s i := skipWsF_ge _ s i

/-- A found character is at or after the start and in bounds. -/
theorem findCharF_spec : ∀ (fuel : Nat) (s : List Char) (c : Char) (i k : Nat),
    findCharF fuel s c i = some k → i ≤ k ∧ k < s.length ∧ s[k]? = some c
  | 0, _, _, _, _, h => by simp [findCharF] at h
  | fuel + 1, s, c, i, k, h => by
    simp only [findCharF] at h
    split at h
    · next d hd =>
      split_ifs at h with he
      · obtain rfl : i = k := by simpa using h
        exact ⟨le_rfl, getElem?_some_lt s i d hd, by rw [hd, he]⟩
      · obtain ⟨h1, h2, h3⟩ := findCharF_spec fuel s c (i + 1) k h
        exact ⟨by omega, h2, h3⟩
    · simp at h

/-- `findChar` specification. -/
theorem findChar_spec (s : List Char) (c : Char) (i k : Nat)
    (h : findChar s c i = some k) : i ≤ k ∧ k < s.length ∧ s[k]? = some c :=
  findCharF_spec _ s c i k h

/-- A word occurring at `p` ends within the string. -/
theorem hasSub_bound (s : List Char) (p : Nat) (w : List Char) (hw : w ≠ [])
    (h : hasSub s p w = true) : p + w.length ≤ s.length := by
  have hp := List.isPrefixOf_iff_prefix.mp h
  have h1 := List.IsPrefix.length_le hp
  rw [List.length_drop] at h1
  have h2 : 0 < w.length := List.length_pos.mpr hw
  omega

/-- Bounds of a whole-word match. -/
theorem matchWord_bound (w s : List Char) (p e : Nat) (hw : w ≠ [])
    (h : matchWord w s p = some e) : p ≤ e ∧ e ≤ s.length := by
  simp only [matchWord] at h
  split_ifs at h with hc
  obtain rfl : p + w.length = e := by simpa using h
  simp only [Bool.and_eq_true] at hc
  exact ⟨by omega, hasSub_bound s p w hw hc.1.2⟩

/-- Bounds of a literal match. -/
theorem matchLit_bound (w s : List Char) (p e : Nat) (hw : w ≠ [])
    (h : matchLit w s p = some e) : p ≤ e ∧ e ≤ s.length := by
  simp only [matchLit] at h
  split_ifs at h with hc
  obtain rfl : p + w.length = e := by simpa using h
  exact ⟨by omega, hasSub_bound s p w hw hc⟩

/-- Inversion of the comment-slash matcher: either the line-start marker
match of length 2, or a one-character prefix (never a colon) plus the
marker, of length 3. -/
theorem matchCommentSlash_inv (s : List Char) (q e : Nat)
    (h : matchCommentSlash s q = some e) :
    (q = 0 ∧ e = 2 ∧ hasSub s 0 ['/', '/'] = true) ∨
    (∃ c, s[q]? = some c ∧ c ≠ ':' ∧ hasSub s (q + 1) ['/', '/'] = true ∧
      e = q + 3) := by
  simp only [matchCommentSlash] at h
  split_ifs at h with h1
  · simp only [Bool.and_eq_true, decide_eq_true_eq] at h1
    exact Or.inl ⟨h1.1, by simpa using h.symm, h1.2⟩
  · split at h
    · next c hc =>
      split_ifs at h with h2
      simp only [Bool.and_eq_true, decide_eq_true_eq] at h2
      exact Or.inr ⟨c, hc, h2.1, h2.2, by simpa using h.symm⟩
    · simp at h

/-- Bounds of a comment-slash match. -/
theorem matchCommentSlash_bound (s : List Char) (q e : Nat)
    (h : matchCommentSlash s q = some e) : q ≤ e ∧ e ≤ s.length := by
  rcases matchCommentSlash_inv s q e h with ⟨rfl, rfl, hs⟩ | ⟨c, _, _, hs, rfl⟩
  · have := hasSub_bound s 0 ['/', '/'] (by simp) hs
    simp only [List.length_cons, List.length_nil] at this
    omega
  · have := hasSub_bound s (q + 1) ['/', '/'] (by simp) hs
    simp only [List.length_cons, List.length_nil] at this
    omega

/-- Bounds of a word-then-parenthesis match. -/
theorem matchWordParen_bound (w s : List Char) (p e : Nat)
    (h : matchWordParen w s p = some e) : p ≤ e ∧ e ≤ s.length := by
  simp only [matchWordParen] at h
  split_ifs at h with h1 h2
  obtain rfl : skipWs s (p + w.length) + 1 = e := by simpa using h
  have hlt := getElem?_some_lt _ _ _ h2
  have hge := skipWs_ge s (p + w.length)
  omega

/-- Specification of the quoted-argument capture. -/
theorem matchQuotedArg_spec (s : List Char) (j a b : Nat)
    (h : matchQuotedArg s j = some (a, b)) : a = j ∧ j < b ∧ b ≤ s.length := by
  simp only [matchQuotedArg] at h
  split at h
  · next c hc =>
    split_ifs at h with h1
    · split at h
      · next k hk =>
        obtain ⟨rfl, rfl⟩ : j = a ∧ k + 1 = b := by simpa using h
        obtain ⟨hk1, hk2, _⟩ := findChar_spec s c (j + 1) k hk
        exact ⟨rfl, by omega, by omega⟩
      · simp at h
  · simp at h

/-- Specification of the grep-argument capture. -/
theorem matchGrepArg_spec (s : List Char) (j a b : Nat)
    (h : matchGrepArg s j = some (a, b)) : a = j ∧ j < b ∧ b ≤ s.length := by
  simp only [matchGrepArg] at h
  split at h
  · next c hc =>
    split_ifs at h with h1
    · split at h
      · next k hk =>
        obtain ⟨rfl, rfl⟩ : j = a ∧ k + 1 = b := by simpa using h
        obtain ⟨hk1, hk2, _⟩ := findChar_spec s '/' (j + 1) k hk
        exact ⟨rfl, by omega, by omega⟩
      · simp at h
    · exact matchQuotedArg_spec s j a b h
  · simp at h

/-- Bounds of a grep match. -/
theorem matchGrep_bound (s : List Char) (p e : Nat) (cap : Nat × Nat)
    (h : matchGrep s p = some (e, cap)) : p ≤ e ∧ e ≤ s.length := by
  simp only [matchGrep] at h
  split_ifs at h with h1 h2
  split at h
  · next c hc =>
    split_ifs at h with h3
    obtain ⟨rfl, rfl⟩ : skipWs s c.2 + 1 = e ∧ c = cap := by simpa using h
    have hlt := getElem?_some_lt _ _ _ h3
    obtain ⟨ha, hb, hc2⟩ := matchGrepArg_spec s (skipWs s (skipWs s (p + 4) + 1)) c.1 c.2 hc
    have g1 := skipWs_ge s (p + 4)
    have gj := skipWs_ge s (skipWs s (p + 4) + 1)
    have g2 := skipWs_ge s c.2
    omega
  · simp at h

/-- Bounds of an is-cast match. -/
theorem matchIs_bound (s : List Char) (p e : Nat) (cap : Nat × Nat)
    (h : matchIs s p = some (e, cap)) : p ≤ e ∧ e ≤ s.length := by
  simp only [matchIs] at h
  split_ifs at h with h1 h2 h3
  split at h
  · next k hk =>
    split_ifs at h with h4 h5
    obtain ⟨rfl, rfl⟩ :
        skipWs s (k + 1) + 1 = e ∧ (skipWs s (skipWs s (p + 2) + 1), k + 1) = cap := by
      simpa using h
    have hlt := getElem?_some_lt _ _ _ h5
    obtain ⟨hk1, hk2, _⟩ := findChar_spec s '>' (skipWs s (skipWs s (p + 2) + 1) + 1) k hk
    have gi := skipWs_ge s (p + 2)
    have gj := skipWs_ge s (skipWs s (p + 2) + 1)
    have g2 := skipWs_ge s (k + 1)
    omega
  · simp at h

/-- Bounds of a nest_dotted match. -/
theorem matchNestDotted_bound (s : List Char) (p e : Nat)
    (h : matchNestDotted s p = some e) : p ≤ e ∧ e ≤ s.length := by
  simp only [matchNestDotted] at h
  split_ifs at h with h1 h2 h3
  obtain rfl : skipWs s (skipWs s (p + 11) + 1) + 1 = e := by simpa using h
  have hlt := getElem?_some_lt _ _ _ h3
  have g1 := skipWs_ge s (p + 11)
  have g2 := skipWs_ge s (skipWs s (p + 11) + 1)
  omega

/-- Bounds of a quoted-cast match. -/
theorem matchCast_bound (w s : List Char) (p e : Nat) (cap : Nat × Nat)
    (h : matchCast w s p = some (e, cap)) : p ≤ e ∧ e ≤ s.length := by
  simp only [matchCast] at h
  split_ifs at h with h1 h2
  split at h
  · next c hc =>
    split_ifs at h with h3
    obtain ⟨rfl, rfl⟩ : skipWs s c.2 + 1 = e ∧ c = cap := by simpa using h
    have hlt := getElem?_some_lt _ _ _ h3
    obtain ⟨ha, hb, hc2⟩ :=
      matchQuotedArg_spec s (skipWs s (skipWs s (p + w.length) + 1)) c.1 c.2 hc
    have g1 := skipWs_ge s (p + w.length)
    have gj := skipWs_ge s (skipWs s (p + w.length) + 1)
    have g2 := skipWs_ge s c.2
    omega
  · simp at h

/-- A position found by the leftmost-match search is a real match at or
after the start. -/
theorem findFromF_spec (m : List Char → Nat → Option Nat) (s : List Char) :
    ∀ (fuel p q e : Nat), findFromF m s fuel p = some (q, e) →
      p ≤ q ∧ m s q = some e
  | 0, p, q, e, h => by simp [findFromF] at h
  | fuel + 1, p, q, e, h => by
    simp only [findFromF] at h
    split_ifs at h
    split at h
    · next e2 he =>
      obtain ⟨rfl, rfl⟩ : p = q ∧ e2 = e := by simpa using h
      exact ⟨le_rfl, he⟩
    · obtain ⟨h1, h2⟩ := findFromF_spec m s fuel (p + 1) q e h
      exact ⟨by omega, h2⟩

/-- Every pair collected by the find-all loop is a real match. -/
theorem findAllF_mem (m : List Char → Nat → Option Nat) (s : List Char) :
    ∀ (fuel p q e : Nat), (q, e) ∈ findAllF m s fuel p → m s q = some e
  | 0, p, q, e, h => by simp [findAllF] at h
  | fuel + 1, p, q, e, h => by
    simp only [findAllF] at h
    split at h
    · simp at h
    · next q2 e2 hf =>
      simp only [List.mem_cons] at h
      rcases h with heq | h
      · injection heq with h1 h2
        subst h1
        subst h2
        exact (findFromF_spec m s _ _ _ _ hf).2
      · exact findAllF_mem m s fuel _ q e h

/-- Every index pair of `findAllOf` is a real match of the matcher. -/
theorem findAllOf_mem (m : List Char → Nat → Option Nat) (s : List Char)
    (q e : Nat) (h : (q, e) ∈ findAllOf m s) : m s q = some e :=
  findAllF_mem m s _ _ q e h

/-- Every match index pair returned by a registry rule's `find` is ordered
and within the line. -/
theorem migrations_find_bound (m : Migration) (hm : m ∈ migrations)
    (line : List Char) (q e : Nat) (h : (q, e) ∈ m.find line) :
    q ≤ e ∧ e ≤ line.length := by
  simp only [migrations, List.mem_cons, List.not_mem_nil, or_false] at hm
  rcases hm with rfl | rfl | rfl | rfl | rfl | rfl | rfl | rfl | rfl | rfl | rfl |
    rfl | rfl | rfl | rfl | rfl | rfl <;>
    simp only at h
  · exact matchWord_bound _ line q e (by simp) (findAllOf_mem _ line q e h)
  · exact matchWord_bound _ line q e (by simp) (findAllOf_mem _ line q e h)
  · exact matchLit_bound _ line q e (by simp) (findAllOf_mem _ line q e h)
  · exact matchCommentSlash_bound line q e (findAllOf_mem _ line q e h)
  · exact matchWordParen_bound _ line q e (findAllOf_mem _ line q e h)
  · have h2 := findAllOf_mem _ line q e h
    rw [Option.map_eq_some'] at h2
    obtain ⟨pe, hpe, rfl⟩ := h2
    exact matchGrep_bound line q pe.1 pe.2 (by rw [hpe])
  · have h2 := findAllOf_mem _ line q e h
    rw [Option.map_eq_some'] at h2
    obtain ⟨pe, hpe, rfl⟩ := h2
    exact matchIs_bound line q pe.1 pe.2 (by rw [hpe])
  · exact matchNestDotted_bound line q e (findAllOf_mem _ line q e h)
  · have h2 := findAllOf_mem _ line q e h
    rw [Option.map_eq_some'] at h2
    obtain ⟨pe, hpe, rfl⟩ := h2
    exact matchCast_bound _ line q pe.1 pe.2 (by rw [hpe])
  · have h2 := findAllOf_mem _ line q e h
    rw [Option.map_eq_some'] at h2
    obtain ⟨pe, hpe, rfl⟩ := h2
    exact matchCast_bound _ line q pe.1 pe.2 (by rw [hpe])
  · have h2 := findAllOf_mem _ line q e h
    rw [Option.map_eq_some'] at h2
    obtain ⟨pe, hpe, rfl⟩ := h2
    exact matchCast_bound _ line q pe.1 pe.2 (by rw [hpe])
  · have h2 := findAllOf_mem _ line q e h
    rw [Option.map_eq_some'] at h2
    obtain ⟨pe, hpe, rfl⟩ := h2
    exact matchCast_bound _ line q pe.1 pe.2 (by rw [hpe])
  · exact matchWordParen_bound _ line q e (findAllOf_mem _ line q e h)
  · exact matchWordParen_bound _ line q e (findAllOf_mem _ line q e h)
  · exact matchWordParen_bound _ line q e (findAllOf_mem _ line q e h)
  · exact matchWordParen_bound _ line q e (findAllOf_mem _ line q e h)
  · exact matchWordParen_bound _ line q e (findAllOf_mem _ line q e h)

/-- Membership in `enumFrom` determines the element at the index. -/
theorem mem_enumFrom_get {α : Type} : ∀ (l : List α) (n i : Nat) (x : α),
    (i, x) ∈ List.enumFrom n l → n ≤ i ∧ l[i - n]? = some x
  | [], n, i, x, h => by simp at h
  | a :: as, n, i, x, h => by
    simp only [List.enumFrom, List.mem_cons] at h
    rcases h with heq | h
    · injection heq with h1 h2
      subst h1
      subst h2
      exact ⟨le_rfl, by simp⟩
    · obtain ⟨h1, h2⟩ := mem_enumFrom_get as (n + 1) i x h
      refine ⟨by omega, ?_⟩
      have he : i - n = (i - (n + 1)) + 1 := by omega
      rw [he, List.getElem?_cons_succ]
      exact h2

/-- Membership in `enum` determines the element at the index. -/
theorem mem_enum_get {α : Type} (l : List α) (i : Nat) (x : α)
    (h : (i, x) ∈ l.enum) : l[i]? = some x := by
  have h2 := mem_enumFrom_get l 0 i x h
  simpa using h2.2

/-- Inversion of `getMigrationDiagnostics`: every produced diagnostic comes
from a registry rule's match on some line of the split text. -/
theorem getMigrationDiagnostics_mem (text : List Char) (md : MigrationDiagnostic)
    (h : md ∈ getMigrationDiagnostics text) :
    ∃ ln line m q e, (splitNl text)[ln]? = some line ∧ m ∈ migrations ∧
      ((q, e) ∈ m.find line) ∧
      mkMigrationDiag ln line (indexOfSub line ['-', '-']) m (q, e) = some md := by
  simp only [getMigrationDiagnostics, List.mem_flatten, List.mem_map] at h
  obtain ⟨outer, ⟨le, hle, rfl⟩, hmd⟩ := h
  obtain ⟨ln, line⟩ := le
  simp only [List.mem_flatten, List.mem_map] at hmd
  obtain ⟨inner, ⟨m, hm, rfl⟩, hmd⟩ := hmd
  simp only [List.mem_filterMap] at hmd
  obtain ⟨se, hse, hmk⟩ := hmd
  obtain ⟨q, e⟩ := se
  exact ⟨ln, line, m, q, e, mem_enum_get _ ln line hle, hm, hse, hmk⟩

/-- Fields of a successfully built migration diagnostic: both positions sit
on the scanned line, the end column is the match end, the start column is
the match start or (comment-slash narrowing) two before the end, and the
code is the rule's code. -/
theorem mkMigrationDiag_fields (ln : Nat) (line : List Char) (ci : Option Nat)
    (m : Migration) (q e : Nat) (md : MigrationDiagnostic)
    (h : mkMigrationDiag ln line ci m (q, e) = some md) :
    md.Diagnostic.Range.Start.Line = ln ∧ md.Diagnostic.Range.End.Line = ln ∧
    md.Diagnostic.Range.End.Character = e ∧
    (md.Diagnostic.Range.Start.Character = q ∨
      md.Diagnostic.Range.Start.Character = e - 2) ∧
    md.Diagnostic.Code = m.Code := by
  simp only [mkMigrationDiag] at h
  split_ifs at h
  all_goals
    obtain rfl : md = _ := by simpa using h.symm
    refine ⟨rfl, rfl, rfl, ?_, rfl⟩
    first
    | exact Or.inl rfl
    | exact Or.inr rfl

/-- C8.  Diagnostic range bounds: every diagnostic produced by the scanner
has start and end on the same (existing) line, with the start column at
most the end column and the end column at most the line's length (columns
are byte offsets, hence non-negative `Nat`s). -/
theorem diagnostic_range_bounds (text : List Char) (md : MigrationDiagnostic)
    (h : md ∈ getMigrationDiagnostics text) :
    md.Diagnostic.Range.Start.Line = md.Diagnostic.Range.End.Line ∧
    0 ≤ md.Diagnostic.Range.Start.Character ∧
    md.Diagnostic.Range.Start.Character ≤ md.Diagnostic.Range.End.Character ∧
    ∃ line, (splitNl text)[md.Diagnostic.Range.Start.Line]? = some line ∧
      md.Diagnostic.Range.End.Character ≤ line.length := by
  obtain ⟨ln, line, m, q, e, hget, hm, hfind, hmk⟩ :=
    getMigrationDiagnostics_mem text md h
  obtain ⟨hl1, hl2, he, hs, _⟩ := mkMigrationDiag_fields ln line _ m q e md hmk
  obtain ⟨hqe, hel⟩ := migrations_find_bound m hm line q e hfind
  refine ⟨by rw [hl1, hl2], Nat.zero_le _, ?_, line, by rw [hl1]; exact hget, ?_⟩
  · rcases hs with hs | hs <;> rw [hs, he] <;> omega
  · rw [he]
    exact hel

/-- C8 witness: the theorem applied to the sole diagnostic of the text
`yield`. -/
theorem diagnostic_range_bounds_witness :
    ∃ line, (splitNl ['y', 'i', 'e', 'l', 'd'])[(0 : Nat)]? = some line ∧
      5 ≤ line.length :=
  (diagnostic_range_bounds ['y', 'i', 'e', 'l', 'd']
    ⟨⟨⟨⟨0, 0⟩, ⟨0, 5⟩⟩, 2, "deprecated-yield", "superdb-lsp",
        quoted "yield" ++ " is deprecated, use ".toList ++ quoted "values"⟩,
      some ⟨⟨⟨0, 0⟩, ⟨0, 5⟩⟩, "values".toList⟩⟩
    (by decide)).2.2.2

/-- The registry rule carrying the comment-slash code is the comment-slash
rule: its matcher, auto-fix flag and fix function are fixed. -/
theorem commentSlash_rule (m : Migration) (hm : m ∈ migrations)
    (hcode : m.Code = "deprecated-comment-slash") :
    m.find = findAllOf matchCommentSlash ∧ m.HasAutoFix = true ∧
    m.FixFunc = some commentSlashFix := by
  simp only [migrations, List.mem_cons, List.not_mem_nil, or_false] at hm
  rcases hm with rfl | rfl | rfl | rfl | rfl | rfl | rfl | rfl | rfl | rfl | rfl |
    rfl | rfl | rfl | rfl | rfl | rfl <;>
    first
    | exact ⟨rfl, rfl, rfl⟩
    | exact absurd hcode (by decide)

/-- The fix attached to a built migration diagnostic covers exactly the
match range. -/
theorem mkMigrationDiag_fix_range (ln : Nat) (line : List Char) (ci : Option Nat)
    (m : Migration) (q e : Nat) (md : MigrationDiagnostic) (f : TextEdit)
    (h : mkMigrationDiag ln line ci m (q, e) = some md) (hf : md.Fix = some f) :
    f.Range.Start = ⟨ln, q⟩ ∧ f.Range.End = ⟨ln, e⟩ := by
  simp only [mkMigrationDiag] at h
  split_ifs at h
  all_goals
    obtain rfl : md = _ := by simpa using h.symm
    first
    | (obtain rfl : f = _ := by simpa using hf.symm
       exact ⟨rfl, rfl⟩)
    | simp at hf

/-- Reading a three-character match of the comment-slash rule off the
row. -/
theorem slice_three (row : List Char) (q : Nat) (c : Char)
    (hc : row[q]? = some c) (hsub : hasSub row (q + 1) ['/', '/'] = true) :
    slice row q (q + 3) = [c, '/', '/'] ∧
    row[q + 1]? = some '/' ∧ row[q + 2]? = some '/' := by
  have hq := getElem?_some_lt _ _ _ hc
  obtain ⟨t, ht⟩ := List.isPrefixOf_iff_prefix.mp hsub
  have hd : row.drop q = c :: row.drop (q + 1) := by
    rw [List.drop_eq_getElem_cons hq]
    obtain ⟨h1, h2⟩ := List.getElem?_eq_some.mp hc
    rw [h2]
  have h1 : row[q + 1]? = some '/' := by
    have := List.getElem?_drop row (q + 1) 0
    rw [← ht] at this
    simpa using this.symm
  have h2 : row[q + 2]? = some '/' := by
    have := List.getElem?_drop row (q + 1) 1
    rw [← ht] at this
    have he : q + 1 + 1 = q + 2 := by omega
    rw [he] at this
    simpa using this.symm
  refine ⟨?_, h1, h2⟩
  simp only [slice, hd, ← ht]
  simp [Nat.add_sub_cancel_left]

/-- A three-character comment-slash match builds the narrowed diagnostic
(the marker alone) and the full-width fix preserving the leading
character. -/
theorem mkMigrationDiag_commentSlash (ln : Nat) (row : List Char)
    (ci : Option Nat) (m : Migration) (q : Nat) (md : MigrationDiagnostic)
    (c : Char) (hcode : m.Code = "deprecated-comment-slash")
    (hauto : m.HasAutoFix = true) (hfixf : m.FixFunc = some commentSlashFix)
    (hc : row[q]? = some c) (hsub : hasSub row (q + 1) ['/', '/'] = true)
    (h : mkMigrationDiag ln row ci m (q, q + 3) = some md) :
    md.Diagnostic.Range.Start = ⟨ln, q + 1⟩ ∧
    md.Diagnostic.Range.End = ⟨ln, q + 3⟩ ∧
    md.Fix = some ⟨⟨⟨ln, q⟩, ⟨ln, q + 3⟩⟩, [c, '-', '-']⟩ := by
  obtain ⟨hslice, _, _⟩ := slice_three row q c hc hsub
  simp only [mkMigrationDiag, hslice, hcode, hauto, hfixf] at h
  simp only [commentSlashFix] at h
  split_ifs at h <;>
    first
    | (obtain rfl : md = _ := by simpa using h.symm
       exact ⟨rfl, rfl, rfl⟩)
    | simp_all

/-- C10.  The comment-slash diagnostic narrows to the two-character marker
while its edit keeps the full three-character match: when the edit spans
three columns, the diagnostic starts one column after the edit, both end at
the same place, the row holds a non-colon character followed by `//` at
the edit's start, and the replacement keeps that character and turns `//`
into `--`. -/
theorem comment_slash_fix (text : List Char) (md : MigrationDiagnostic)
    (hmem : md ∈ getMigrationDiagnostics text)
    (hcode : md.Diagnostic.Code = "deprecated-comment-slash")
    (f : TextEdit) (hf : md.Fix = some f)
    (hlen : f.Range.End.Character - f.Range.Start.Character = 3) :
    md.Diagnostic.Range.Start.Line = f.Range.Start.Line ∧
    md.Diagnostic.Range.End = f.Range.End ∧
    md.Diagnostic.Range.Start.Character = f.Range.Start.Character + 1 ∧
    ∃ row c, (splitNl text)[f.Range.Start.Line]? = some row ∧
      row[f.Range.Start.Character]? = some c ∧ c ≠ ':' ∧
      row[f.Range.Start.Character + 1]? = some '/' ∧
      row[f.Range.Start.Character + 2]? = some '/' ∧
      f.NewText = [c, '-', '-'] := by
  obtain ⟨ln, row, m, q, e, hget, hm, hfind, hmk⟩ :=
    getMigrationDiagnostics_mem text md hmem
  have hmc : m.Code = "deprecated-comment-slash" := by
    have hfields := mkMigrationDiag_fields ln row _ m q e md hmk
    rw [← hfields.2.2.2.2, hcode]
  obtain ⟨hfindEq, hauto, hfixf⟩ := commentSlash_rule m hm hmc
  rw [hfindEq] at hfind
  have hmatch := findAllOf_mem _ row q e hfind
  obtain ⟨hfs, hfe⟩ := mkMigrationDiag_fix_range ln row _ m q e md f hmk hf
  have he3 : e - q = 3 := by
    rw [hfs, hfe] at hlen
    exact hlen
  rcases matchCommentSlash_inv row q e hmatch with ⟨rfl, rfl, _⟩ | ⟨c, hc, hcolon, hsub, rfl⟩
  · simp at he3
  · obtain ⟨hds, hde, hdf⟩ :=
      mkMigrationDiag_commentSlash ln row _ m q md c hmc hauto hfixf hc hsub hmk
    obtain rfl : f = ⟨⟨⟨ln, q⟩, ⟨ln, q + 3⟩⟩, [c, '-', '-']⟩ := by
      rw [hdf] at hf
      simpa using hf.symm
    obtain ⟨_, h1, h2⟩ := slice_three row q c hc hsub
    exact ⟨by rw [hds], by rw [hde], by rw [hds], row, c, hget, hc, hcolon, h1, h2, rfl⟩

/-- C10 witness: the theorem applied to the diagnostic of `a//b`, whose
match includes the character before the marker. -/
theorem comment_slash_fix_witness :
    ∃ row c, (splitNl ['a', '/', '/', 'b'])[(0 : Nat)]? = some row ∧
      row[(0 : Nat)]? = some c ∧ c ≠ ':' ∧
      row[(1 : Nat)]? = some '/' ∧ row[(2 : Nat)]? = some '/' ∧
      (⟨⟨⟨0, 0⟩, ⟨0, 3⟩⟩, ['a', '-', '-']⟩ : TextEdit).NewText = [c, '-', '-'] :=
  (comment_slash_fix ['a', '/', '/', 'b']
    ⟨⟨⟨⟨0, 1⟩, ⟨0, 3⟩⟩, 2, "deprecated-comment-slash", "superdb-lsp",
        quoted "//" ++ " comments are deprecated, use ".toList ++ quoted "--"⟩,
      some ⟨⟨⟨0, 0⟩, ⟨0, 3⟩⟩, ['a', '-', '-']⟩⟩
    (by decide) (by decide) ⟨⟨⟨0, 0⟩, ⟨0, 3⟩⟩, ['a', '-', '-']⟩ (by decide)
    (by decide)).2.2.2

end SuperdbLsp
